import Mathlib

/-!
Shallow embedding of the pairwise/graph-based ranking engine of the
tallystick library (src/condorcet.rs, src/schulze.rs, src/result.rs,
src/util.rs, src/plurality.rs), together with theorems settling the
spec claims about it.

Modelling conventions:
* Rust `HashMap<K, V>` is modelled as an association list `List (K × V)`
  whose iteration order is the insertion order; `insert` updates an
  existing key in place (hashbrown semantics) and appends a fresh key.
* The count type `C` (default `u64`) is modelled as `ℕ`; overflow is
  immaterial to the claims, which are stated at the level of exact counts.
* Candidate types `T : Eq + Clone + Hash` are modelled as a type `α` with
  `DecidableEq α`.
* Rust methods that mutate `&mut self` and return `Result<(), TallyError>`
  are modelled as functions returning the pair
  `Except TallyError Unit × State` (result together with the post-state),
  so that the all-or-nothing acceptance behaviour is visible.
-/

namespace Tallystick

/-- Lookup in an association list: the value of the first entry whose key
matches (models `HashMap::get`). -/
def alookup {κ ν : Type} [DecidableEq κ] (l : List (κ × ν)) (k : κ) : Option ν :=
  (l.find? (fun e => e.1 = k)).map Prod.snd

/-- Insert-or-update in an association list: replaces the value of an
existing key in place, appends a new entry otherwise (models
`HashMap::insert`). -/
def ainsert {κ ν : Type} [DecidableEq κ] (k : κ) (v : ν) : List (κ × ν) → List (κ × ν)
  | [] => [(k, v)]
  | e :: rest => if e.1 = k then (k, v) :: rest else e :: ainsert k v rest

/-- Add `w` to the entry at key `k`, inserting the entry with value `w` if
absent (models `*map.entry(k).or_insert(zero) += w`). -/
def bump {κ : Type} [DecidableEq κ] (m : List (κ × ℕ)) (k : κ) (w : ℕ) : List (κ × ℕ) :=
  match alookup m k with
  | some v => ainsert k (v + w) m
  | none => m ++ [(k, w)]

/-- Value stored at key `k`, reading an absent entry as zero
(models `map.get(&k).unwrap_or(&zero)`). -/
def lookup0 {κ : Type} [DecidableEq κ] (m : List (κ × ℕ)) (k : κ) : ℕ :=
  (alookup m k).getD 0

theorem alookup_nil {κ ν : Type} [DecidableEq κ] (k : κ) :
    alookup ([] : List (κ × ν)) k = none := rfl

theorem alookup_cons {κ ν : Type} [DecidableEq κ] (e : κ × ν) (l : List (κ × ν)) (k : κ) :
    alookup (e :: l) k = if e.1 = k then some e.2 else alookup l k := by
  by_cases h : e.1 = k <;> simp [alookup, List.find?, h]

theorem alookup_append {κ ν : Type} [DecidableEq κ] (l₁ l₂ : List (κ × ν)) (k : κ) :
    alookup (l₁ ++ l₂) k =
      match alookup l₁ k with
      | some v => some v
      | none => alookup l₂ k := by
  induction l₁ with
  | nil => simp [alookup_nil]
  | cons e rest ih =>
    rw [List.cons_append, alookup_cons, alookup_cons]
    by_cases h : e.1 = k <;> simp [h, ih]

theorem alookup_ainsert {κ ν : Type} [DecidableEq κ] (k k' : κ) (v : ν) (l : List (κ × ν)) :
    alookup (ainsert k v l) k' = if k = k' then some v else alookup l k' := by
  induction l with
  | nil =>
    by_cases h : k = k' <;> simp [ainsert, alookup_cons, alookup_nil, h]
  | cons e rest ih =>
    by_cases he : e.1 = k
    · subst he
      simp only [ainsert, if_pos rfl]
      by_cases h : e.1 = k' <;> simp [alookup_cons, h]
    · simp only [ainsert, if_neg he]
      rw [alookup_cons, alookup_cons]
      by_cases h' : e.1 = k'
      · have hkk : ¬ k = k' := fun hkk => he (hkk ▸ h')
        simp [h', hkk]
      · simp [h', ih]

theorem lookup0_bump {κ : Type} [DecidableEq κ] (m : List (κ × ℕ)) (k k' : κ) (w : ℕ) :
    lookup0 (bump m k w) k' = lookup0 m k' + if k = k' then w else 0 := by
  unfold bump
  cases hm : alookup m k with
  | some v =>
    by_cases h : k = k'
    · subst h
      simp [lookup0, alookup_ainsert, hm]
    · simp [lookup0, alookup_ainsert, h]
  | none =>
    by_cases h : k = k'
    · subst h
      simp [lookup0, alookup_append, hm, alookup_cons, alookup_nil]
    · rw [lookup0, alookup_append]
      cases hk' : alookup m k' with
      | some v => simp [lookup0, hk', h]
      | none => simp [lookup0, hk', alookup_cons, alookup_nil, h]

theorem alookup_isSome_of_mem {κ ν : Type} [DecidableEq κ] {l : List (κ × ν)} {k : κ}
    (h : k ∈ l.map Prod.fst) : (alookup l k).isSome := by
  induction l with
  | nil => cases h
  | cons e rest ih =>
    rw [alookup_cons]
    by_cases he : e.1 = k
    · rw [if_pos he]; rfl
    · rw [if_neg he]
      rw [List.map_cons, List.mem_cons] at h
      rcases h with h | h
      · exact absurd h.symm he
      · exact ih h

theorem alookup_mem {κ ν : Type} [DecidableEq κ] {l : List (κ × ν)} {k : κ} {v : ν}
    (h : alookup l k = some v) : (k, v) ∈ l := by
  unfold alookup at h
  cases hf : l.find? (fun e => e.1 = k) with
  | none => rw [hf] at h; cases h
  | some e =>
    rw [hf] at h
    have hk : e.1 = k := by simpa using List.find?_some hf
    have hv : e.2 = v := by simpa using h
    have : (k, v) = e := by
      rw [← hk, ← hv]
    rw [this]
    exact List.mem_of_find?_eq_some hf

theorem alookup_of_mem_nodup {κ ν : Type} [DecidableEq κ] {l : List (κ × ν)} {k : κ} {v : ν}
    (hnd : (l.map Prod.fst).Nodup) (h : (k, v) ∈ l) : alookup l k = some v := by
  induction l with
  | nil => cases h
  | cons e rest ih =>
    rw [List.map_cons, List.nodup_cons] at hnd
    rw [alookup_cons]
    rcases List.mem_cons.mp h with h1 | h1
    · rw [if_pos (congrArg Prod.fst h1.symm)]
      exact congrArg some (Prod.ext_iff.mp h1).2.symm
    · by_cases he : e.1 = k
      · exact absurd (he ▸ List.mem_map.mpr ⟨(k, v), h1, rfl⟩) hnd.1
      · rw [if_neg he]
        exact ih hnd.2 h1

theorem countP_keyed {κ ν : Type} [DecidableEq κ] {l : List (κ × ν)}
    (hnd : (l.map Prod.fst).Nodup) (q : κ × ν → Bool) (k : κ)
    (hq : ∀ e, q e = true → e.1 = k) :
    l.countP q =
      match alookup l k with
      | some v => if q (k, v) then 1 else 0
      | none => 0 := by
  induction l with
  | nil => rfl
  | cons e rest ih =>
    rw [List.map_cons, List.nodup_cons] at hnd
    rw [List.countP_cons, alookup_cons]
    by_cases he : e.1 = k
    · have hrest : rest.countP q = 0 := by
        rw [List.countP_eq_zero]
        intro y hy hqy
        exact hnd.1 (he ▸ hq y hqy ▸ List.mem_map_of_mem Prod.fst hy)
      rw [if_pos he, hrest]
      have heq : (k, e.2) = e := by rw [← he]
      show (0 + if q e = true then 1 else 0) = if q (k, e.2) = true then 1 else 0
      rw [heq]
      simp
    · have hqe : q e = false := by
        cases hv : q e with
        | false => rfl
        | true => exact absurd (hq e hv) he
      rw [if_neg he, hqe, ih hnd.2]
      simp

theorem countP_or_disjoint {β : Type} (q1 q2 : β → Bool) (l : List β)
    (hdisj : ∀ e ∈ l, ¬ (q1 e = true ∧ q2 e = true)) :
    l.countP (fun e => q1 e || q2 e) = l.countP q1 + l.countP q2 := by
  induction l with
  | nil => rfl
  | cons e rest ih =>
    rw [List.countP_cons, List.countP_cons, List.countP_cons,
      ih (fun x hx => hdisj x (List.mem_cons_of_mem e hx))]
    have := hdisj e (List.mem_cons_self e rest)
    cases h1 : q1 e <;> cases h2 : q2 e <;> simp [h1, h2] at this ⊢ <;> omega

/-- Errors that may occur during a tally (src/errors.rs `TallyError`). -/
inductive TallyError : Type
  | VoteHasDuplicateCandidates : TallyError
  | UnknownCandidate : TallyError
deriving DecidableEq, Repr

/-- Check for duplicates in a transitive vote
(src/util.rs `check_duplicates_transitive_vote`): the Rust nested loop
returns `VoteHasDuplicateCandidates` as soon as any candidate occurs twice. -/
def check_duplicates_transitive_vote {α : Type} [DecidableEq α] :
    List α → Except TallyError Unit
  | [] => Except.ok ()
  | c :: rest =>
    if c ∈ rest then Except.error TallyError.VoteHasDuplicateCandidates
    else check_duplicates_transitive_vote rest

/-- Check for duplicates in a ranked vote
(src/util.rs `check_duplicates_ranked_vote`): duplicate detection looks only
at the candidate component of each `(candidate, rank)` pair. -/
def check_duplicates_ranked_vote {α : Type} [DecidableEq α] :
    List (α × ℕ) → Except TallyError Unit
  | [] => Except.ok ()
  | c :: rest =>
    if c.1 ∈ rest.map Prod.fst then Except.error TallyError.VoteHasDuplicateCandidates
    else check_duplicates_ranked_vote rest

/-- State of a Condorcet tally (src/condorcet.rs `CondorcetTally`), with the
count type `C` fixed to `ℕ` (the default `u64`). `candidates` maps candidate
values to integer identifiers, `running_total` maps ordered id pairs to
pairwise counts. -/
structure CondorcetTally (α : Type) where
  running_total : List ((ℕ × ℕ) × ℕ)
  num_winners : ℕ
  candidates : List (α × ℕ)
  check_votes : Bool
deriving DecidableEq, Repr

namespace CondorcetTally

variable {α : Type} [DecidableEq α]

/-- Create a new tally (src/condorcet.rs `CondorcetTally::new`). -/
def new (num_winners : ℕ) : CondorcetTally α :=
  { running_total := [], num_winners := num_winners, candidates := [], check_votes := true }

/-- Make this tally an unchecked tally (src/condorcet.rs `unchecked`). -/
def unchecked (t : CondorcetTally α) : CondorcetTally α :=
  { t with check_votes := false }

/-- Add a candidate (src/condorcet.rs `add_candidate`): computes
`candidate_id = candidates.len()` and then inserts `candidate -> candidate_id`,
unconditionally — an existing key gets its value overwritten. -/
def add_candidate (t : CondorcetTally α) (candidate : α) : CondorcetTally α :=
  { t with candidates := ainsert candidate t.candidates.length t.candidates }

/-- Add several candidates in order (src/condorcet.rs `add_candidates`). -/
def add_candidates (t : CondorcetTally α) (cands : List α) : CondorcetTally α :=
  cands.foldl add_candidate t

/-- Create a tally pre-registered with candidates
(src/condorcet.rs `with_candidates`). -/
def with_candidates (num_winners : ℕ) (cands : List α) : CondorcetTally α :=
  add_candidates (new num_winners) cands

/-- Validity check of a transitive vote (src/condorcet.rs `check_vote`):
first every candidate must be known, then no duplicates. -/
def check_vote (t : CondorcetTally α) (vote : List α) : Except TallyError Unit :=
  if vote.all (fun c => (alookup t.candidates c).isSome) then
    check_duplicates_transitive_vote vote
  else Except.error TallyError.UnknownCandidate

/-- Validity check of a ranked vote (src/condorcet.rs `check_ranked_vote`). -/
def check_ranked_vote (t : CondorcetTally α) (vote : List (α × ℕ)) : Except TallyError Unit :=
  if vote.all (fun c => (alookup t.candidates c.1).isSome) then
    check_duplicates_ranked_vote vote
  else Except.error TallyError.UnknownCandidate

/-- Internal representation of a transitive vote
(src/condorcet.rs `unranked_mapped_candidates`): every interned candidate is
assigned the index of its first occurrence in the vote, or `vote.length` when
absent (`List.findIdx` returns the length when no element matches, exactly
like the Rust `position(..)`/`None => selection.len()` pair). -/
def unranked_mapped_candidates (t : CondorcetTally α) (selection : List α) :
    List (ℕ × ℕ) :=
  t.candidates.map (fun e => (e.2, selection.findIdx (fun r => r = e.1)))

/-- The matched part of `ranked_mapped_candidates`: interned candidates found
in the ranked vote, in candidate-map iteration order, paired with the rank of
their first matching vote entry (`selection.iter().find(..)`). -/
def rmcMatched (t : CondorcetTally α) (selection : List (α × ℕ)) : List (ℕ × ℕ) :=
  t.candidates.filterMap (fun e =>
    (selection.find? (fun r => r.1 = e.1)).map (fun rc => (e.2, rc.2)))

/-- The trailing part of `ranked_mapped_candidates`: ids of interned
candidates not mentioned in the ranked vote, in candidate-map iteration
order. -/
def rmcTrailing (t : CondorcetTally α) (selection : List (α × ℕ)) : List ℕ :=
  (t.candidates.filter (fun e => (selection.find? (fun r => r.1 = e.1)).isNone)).map Prod.snd

/-- Maximum explicit rank among matched candidates, starting from 0
(the `max_rank` accumulator of `ranked_mapped_candidates`). -/
def rmcMaxRank (t : CondorcetTally α) (selection : List (α × ℕ)) : ℕ :=
  (rmcMatched t selection).foldl (fun m p => max m p.2) 0

/-- Internal representation of a ranked vote
(src/condorcet.rs `ranked_mapped_candidates`): matched candidates keep their
explicit rank; candidates omitted from the vote are appended afterwards as
trailing candidates at rank `max_rank + 1`. -/
def ranked_mapped_candidates (t : CondorcetTally α) (selection : List (α × ℕ)) :
    List (ℕ × ℕ) :=
  rmcMatched t selection ++
    (rmcTrailing t selection).map (fun id => (id, rmcMaxRank t selection + 1))

/-- One step of the nested pair loop in
src/condorcet.rs `add_ranked_candidate_ids`: compare candidate 1 against
candidate 2 and bump the winning direction (if any) by `weight`. -/
def pairStep (weight : ℕ) (m : List ((ℕ × ℕ) × ℕ)) (c1 c2 : ℕ × ℕ) :
    List ((ℕ × ℕ) × ℕ) :=
  let m1 := if c1.2 < c2.2 then bump m (c1.1, c2.1) weight else m
  if c2.2 < c1.2 then bump m1 (c2.1, c1.1) weight else m1

/-- Inner `while let` loop of `add_ranked_candidate_ids`: compare `c1` against
every later entry of the selection. -/
def innerLoop (weight : ℕ) (c1 : ℕ × ℕ) (rest : List (ℕ × ℕ))
    (m : List ((ℕ × ℕ) × ℕ)) : List ((ℕ × ℕ) × ℕ) :=
  rest.foldl (fun m c2 => pairStep weight m c1 c2) m

/-- Pairwise accumulation of a ranked selection of candidate ids
(src/condorcet.rs `add_ranked_candidate_ids`): for every position pair
`i < j`, the strictly preferred side's `(winner, loser)` entry is bumped by
`weight`. -/
def add_ranked_candidate_ids (weight : ℕ) :
    List (ℕ × ℕ) → List ((ℕ × ℕ) × ℕ) → List ((ℕ × ℕ) × ℕ)
  | [], m => m
  | c1 :: rest, m => add_ranked_candidate_ids weight rest (innerLoop weight c1 rest m)

/-- Add a weighted transitive vote (src/condorcet.rs `add_weighted`); the
result is paired with the post-state to model the mutation of `&mut self`. -/
def add_weighted (t : CondorcetTally α) (vote : List α) (weight : ℕ) :
    Except TallyError Unit × CondorcetTally α :=
  if t.check_votes ∧ (check_vote t vote).isOk = false then
    (check_vote t vote |>.map (fun _ => ()), t)
  else
    (Except.ok (),
      { t with running_total :=
          add_ranked_candidate_ids weight (unranked_mapped_candidates t vote) t.running_total })

/-- Add a transitive vote with weight one (src/condorcet.rs `add`). -/
def add (t : CondorcetTally α) (vote : List α) :
    Except TallyError Unit × CondorcetTally α :=
  add_weighted t vote 1

/-- Add a weighted ranked vote (src/condorcet.rs `ranked_add_weighted`). -/
def ranked_add_weighted (t : CondorcetTally α) (vote : List (α × ℕ)) (weight : ℕ) :
    Except TallyError Unit × CondorcetTally α :=
  if t.check_votes ∧ (check_ranked_vote t vote).isOk = false then
    (check_ranked_vote t vote |>.map (fun _ => ()), t)
  else
    (Except.ok (),
      { t with running_total :=
          add_ranked_candidate_ids weight (ranked_mapped_candidates t vote) t.running_total })

/-- Add a ranked vote with weight one (src/condorcet.rs `ranked_add`). -/
def ranked_add (t : CondorcetTally α) (vote : List (α × ℕ)) :
    Except TallyError Unit × CondorcetTally α :=
  ranked_add_weighted t vote 1

/-- Pairwise count read off a tally: total weight of ballots preferring the
candidate with id `i` over the candidate with id `j` (an absent entry reads as
zero, as in `running_total.get(..).unwrap_or(&zero)`). -/
def cnt (t : CondorcetTally α) (i j : ℕ) : ℕ :=
  lookup0 t.running_total (i, j)

/-- Effective rank of a candidate under a ranked ballot: its explicit rank
when mentioned (first matching entry), otherwise one below the maximum
explicit rank (`max_rank + 1`), the treatment of trailing candidates in
`ranked_mapped_candidates`. -/
def effRank (t : CondorcetTally α) (selection : List (α × ℕ)) (c : α) : ℕ :=
  match selection.find? (fun r => r.1 = c) with
  | some rc => rc.2
  | none => rmcMaxRank t selection + 1

/-- Predicate deciding whether the comparison of selection entries `x` and `y`
(in this order of positions) bumps the running-total key `k`. -/
def pairHit (k : ℕ × ℕ) (x y : ℕ × ℕ) : Bool :=
  (decide (x.2 < y.2) && decide ((x.1, y.1) = k)) ||
    (decide (y.2 < x.2) && decide ((y.1, x.1) = k))

/-- Number of position pairs `i < j` of a selection whose comparison bumps
key `k`. -/
def countInc (k : ℕ × ℕ) : List (ℕ × ℕ) → ℕ
  | [] => 0
  | x :: rest => rest.countP (pairHit k x) + countInc k rest

theorem pairHit_symm (k : ℕ × ℕ) (x y : ℕ × ℕ) : pairHit k x y = pairHit k y x := by
  simp [pairHit, Bool.or_comm]

theorem lookup0_pairStep (w : ℕ) (m : List ((ℕ × ℕ) × ℕ)) (x y k : ℕ × ℕ) :
    lookup0 (pairStep w m x y) k = lookup0 m k + w * (if pairHit k x y then 1 else 0) := by
  unfold pairStep
  by_cases h1 : x.2 < y.2
  · have h2 : ¬ y.2 < x.2 := by omega
    simp only [if_pos h1, if_neg h2, lookup0_bump]
    by_cases hk : (x.1, y.1) = k <;> simp [pairHit, h1, h2, hk] <;> ring
  · by_cases h2 : y.2 < x.2
    · simp only [if_neg h1, if_pos h2, lookup0_bump]
      by_cases hk : (y.1, x.1) = k <;> simp [pairHit, h1, h2, hk] <;> ring
    · simp [if_neg h1, if_neg h2, pairHit,
        show ¬ x.2 < y.2 from h1, show ¬ y.2 < x.2 from h2]

theorem lookup0_innerLoop (w : ℕ) (x k : ℕ × ℕ) :
    ∀ (rest : List (ℕ × ℕ)) (m : List ((ℕ × ℕ) × ℕ)),
      lookup0 (innerLoop w x rest m) k = lookup0 m k + w * rest.countP (pairHit k x) := by
  intro rest
  induction rest with
  | nil => intro m; simp [innerLoop]
  | cons y rest ih =>
    intro m
    have : innerLoop w x (y :: rest) m = innerLoop w x rest (pairStep w m x y) := rfl
    rw [this, ih, lookup0_pairStep, List.countP_cons]
    by_cases h : pairHit k x y <;> simp [h] <;> ring

theorem lookup0_add_ranked_candidate_ids (w : ℕ) (k : ℕ × ℕ) :
    ∀ (sel : List (ℕ × ℕ)) (m : List ((ℕ × ℕ) × ℕ)),
      lookup0 (add_ranked_candidate_ids w sel m) k = lookup0 m k + w * countInc k sel := by
  intro sel
  induction sel with
  | nil => intro m; simp [add_ranked_candidate_ids, countInc]
  | cons x rest ih =>
    intro m
    rw [add_ranked_candidate_ids, ih, lookup0_innerLoop, countInc]
    ring

theorem countInc_perm (k : ℕ × ℕ) {l₁ l₂ : List (ℕ × ℕ)} (h : l₁.Perm l₂) :
    countInc k l₁ = countInc k l₂ := by
  induction h with
  | nil => rfl
  | cons x h ih => rw [countInc, countInc, ih, h.countP_eq]
  | swap x y l =>
    show (x :: l).countP (pairHit k y) + (l.countP (pairHit k x) + countInc k l)
      = (y :: l).countP (pairHit k x) + (l.countP (pairHit k y) + countInc k l)
    rw [List.countP_cons, List.countP_cons, pairHit_symm]
    ring
  | trans _ _ ih₁ ih₂ => rw [ih₁, ih₂]

theorem countP_unique_fst {l : List (ℕ × ℕ)} {j r : ℕ}
    (hnd : (l.map Prod.fst).Nodup) (hm : (j, r) ∈ l) (q : ℕ × ℕ → Bool)
    (hq : ∀ y, q y = true → y.1 = j) :
    l.countP q = if q (j, r) then 1 else 0 := by
  induction l with
  | nil => cases hm
  | cons x rest ih =>
    rw [List.map_cons, List.nodup_cons] at hnd
    rw [List.countP_cons]
    by_cases hx : x.1 = j
    · have hxe : x = (j, r) := by
        rcases List.mem_cons.mp hm with h | h
        · exact h.symm
        · exact absurd (hx ▸ List.mem_map_of_mem Prod.fst h) hnd.1
      have hrest : rest.countP q = 0 := by
        rw [List.countP_eq_zero]
        intro y hy hqy
        exact hnd.1 (hx ▸ hq y hqy ▸ List.mem_map_of_mem Prod.fst hy)
      rw [hrest, hxe]
      by_cases hqx : q (j, r) <;> simp [hqx]
    · have hqx : q x = false := by
        cases hqxv : q x with
        | false => rfl
        | true => exact absurd (hq x hqxv) hx
      have hm' : (j, r) ∈ rest := by
        rcases List.mem_cons.mp hm with h | h
        · exact absurd (congrArg Prod.fst h.symm) hx
        · exact h
      rw [hqx, ih hnd.2 hm']
      simp

theorem countInc_zero_left {l : List (ℕ × ℕ)} {k : ℕ × ℕ}
    (h : k.1 ∉ l.map Prod.fst) : countInc k l = 0 := by
  induction l with
  | nil => rfl
  | cons x rest ih =>
    rw [List.map_cons, List.mem_cons] at h
    push_neg at h
    rw [countInc, ih (by simpa using h.2), List.countP_eq_zero.mpr, Nat.add_zero]
    intro y hy hhit
    rcases Bool.or_eq_true_iff.mp hhit with hc | hc
    · have := of_decide_eq_true (Bool.and_eq_true_iff.mp hc).2
      exact h.1 (by rw [← this])
    · have := of_decide_eq_true (Bool.and_eq_true_iff.mp hc).2
      have hy1 : y.1 = k.1 := by rw [← this]
      exact (h.2) ((hy1 ▸ List.mem_map_of_mem Prod.fst hy))

theorem countInc_zero_right {l : List (ℕ × ℕ)} {k : ℕ × ℕ}
    (h : k.2 ∉ l.map Prod.fst) : countInc k l = 0 := by
  induction l with
  | nil => rfl
  | cons x rest ih =>
    rw [List.map_cons, List.mem_cons] at h
    push_neg at h
    rw [countInc, ih (by simpa using h.2), List.countP_eq_zero.mpr, Nat.add_zero]
    intro y hy hhit
    rcases Bool.or_eq_true_iff.mp hhit with hc | hc
    · have := of_decide_eq_true (Bool.and_eq_true_iff.mp hc).2
      have hy2 : y.1 = k.2 := by rw [← this]
      exact (h.2) ((hy2 ▸ List.mem_map_of_mem Prod.fst hy))
    · have := of_decide_eq_true (Bool.and_eq_true_iff.mp hc).2
      exact h.1 (by rw [← this])

theorem countInc_zero_diag {l : List (ℕ × ℕ)} {k : ℕ × ℕ}
    (hnd : (l.map Prod.fst).Nodup) (hk : k.1 = k.2) : countInc k l = 0 := by
  induction l with
  | nil => rfl
  | cons x rest ih =>
    rw [List.map_cons, List.nodup_cons] at hnd
    rw [countInc, ih hnd.2, Nat.add_zero, List.countP_eq_zero]
    intro y hy hhit
    rcases Bool.or_eq_true_iff.mp hhit with hc | hc
    · have hk' := of_decide_eq_true (Bool.and_eq_true_iff.mp hc).2
      have hx1 : x.1 = k.1 := by rw [← hk']
      have hy1 : y.1 = k.2 := by rw [← hk']
      exact hnd.1 (hx1 ▸ hk ▸ hy1 ▸ List.mem_map_of_mem Prod.fst hy)
    · have hk' := of_decide_eq_true (Bool.and_eq_true_iff.mp hc).2
      have hx1 : x.1 = k.2 := by rw [← hk']
      have hy1 : y.1 = k.1 := by rw [← hk']
      exact hnd.1 (hx1 ▸ hk ▸ hy1 ▸ List.mem_map_of_mem Prod.fst hy)

theorem rmcMatched_eq (t : CondorcetTally α) (sel : List (α × ℕ)) :
    rmcMatched t sel =
      (t.candidates.filter (fun e => (sel.find? (fun r => r.1 = e.1)).isSome)).map
        (fun e => (e.2, effRank t sel e.1)) := by
  unfold rmcMatched
  induction t.candidates with
  | nil => rfl
  | cons e rest ih =>
    rw [List.filterMap_cons, List.filter_cons]
    cases hf : sel.find? (fun r => r.1 = e.1) with
    | some rc =>
      have heff : effRank t sel e.1 = rc.2 := by unfold effRank; rw [hf]
      simp [hf, ih, heff]
    | none =>
      simp [hf, ih]

theorem rmcTrailing_map_eq (t : CondorcetTally α) (sel : List (α × ℕ)) :
    (rmcTrailing t sel).map (fun id => (id, rmcMaxRank t sel + 1)) =
      (t.candidates.filter (fun e => (sel.find? (fun r => r.1 = e.1)).isNone)).map
        (fun e => (e.2, effRank t sel e.1)) := by
  unfold rmcTrailing
  rw [List.map_map]
  apply List.map_congr_left
  intro e he
  rw [List.mem_filter] at he
  have hf : sel.find? (fun r => r.1 = e.1) = none := Option.isNone_iff_eq_none.mp he.2
  have : effRank t sel e.1 = rmcMaxRank t sel + 1 := by unfold effRank; rw [hf]
  simp [this]

theorem ranked_mapped_perm (t : CondorcetTally α) (sel : List (α × ℕ)) :
    (ranked_mapped_candidates t sel).Perm
      (t.candidates.map (fun e => (e.2, effRank t sel e.1))) := by
  unfold ranked_mapped_candidates
  rw [rmcMatched_eq, rmcTrailing_map_eq, ← List.map_append]
  refine List.Perm.map _ ?_
  have := List.filter_append_perm (fun e => (sel.find? (fun r => r.1 = e.1)).isSome)
    t.candidates
  refine List.Perm.trans ?_ this
  apply List.Perm.append_left
  apply List.Perm.of_eq
  apply List.filter_congr
  intro e _
  cases hf : sel.find? (fun r => r.1 = e.1) <;> simp [hf]

theorem snd_injOn {l : List (α × ℕ)} (h : (l.map Prod.snd).Nodup) :
    ∀ {a : α} {ia : ℕ} {b : α} {ib : ℕ},
      (a, ia) ∈ l → (b, ib) ∈ l → ia = ib → a = b := by
  induction l with
  | nil => intro a ia b ib ha; cases ha
  | cons x rest ih =>
    rw [List.map_cons, List.nodup_cons] at h
    intro a ia b ib ha hb hab
    rcases List.mem_cons.mp ha with h1 | h1 <;> rcases List.mem_cons.mp hb with h2 | h2
    · exact (Prod.ext_iff.mp (h1.trans h2.symm)).1
    · exfalso
      apply h.1
      obtain ⟨ha1, ha2⟩ := Prod.ext_iff.mp h1
      rw [← ha2, hab]
      exact List.mem_map.mpr ⟨(b, ib), h2, rfl⟩
    · exfalso
      apply h.1
      obtain ⟨hb1, hb2⟩ := Prod.ext_iff.mp h2
      rw [← hb2, ← hab]
      exact List.mem_map.mpr ⟨(a, ia), h1, rfl⟩
    · exact ih h.2 h1 h2 hab

theorem fst_injOn {l : List (α × ℕ)} (h : (l.map Prod.fst).Nodup) :
    ∀ {a : α} {ia ib : ℕ}, (a, ia) ∈ l → (a, ib) ∈ l → ia = ib := by
  induction l with
  | nil => intro a ia ib ha; cases ha
  | cons x rest ih =>
    rw [List.map_cons, List.nodup_cons] at h
    intro a ia ib ha hb
    rcases List.mem_cons.mp ha with h1 | h1 <;> rcases List.mem_cons.mp hb with h2 | h2
    · exact (Prod.ext_iff.mp (h1.trans h2.symm)).2
    · exfalso
      apply h.1
      obtain ⟨ha1, ha2⟩ := Prod.ext_iff.mp h1
      rw [← ha1]
      exact List.mem_map.mpr ⟨(a, ib), h2, rfl⟩
    · exfalso
      apply h.1
      obtain ⟨hb1, hb2⟩ := Prod.ext_iff.mp h2
      rw [← hb1]
      exact List.mem_map.mpr ⟨(a, ia), h1, rfl⟩
    · exact ih h.2 h1 h2

theorem countInc_eq_one {l : List (ℕ × ℕ)} {i ri j rj : ℕ}
    (hnd : (l.map Prod.fst).Nodup) (hi : (i, ri) ∈ l) (hj : (j, rj) ∈ l) (hij : i ≠ j) :
    countInc (i, j) l = if ri < rj then 1 else 0 := by
  induction l with
  | nil => cases hi
  | cons x rest ih =>
    rw [List.map_cons, List.nodup_cons] at hnd
    rw [countInc]
    by_cases hxi : x.1 = i
    · have hxe : x = (i, ri) := by
        rcases List.mem_cons.mp hi with h1 | h1
        · exact h1.symm
        · exact absurd (hxi ▸ List.mem_map_of_mem Prod.fst h1) hnd.1
      have hj' : (j, rj) ∈ rest := by
        rcases List.mem_cons.mp hj with h2 | h2
        · exact absurd ((Prod.ext_iff.mp h2).1.trans hxi).symm hij
        · exact h2
      have hcp : rest.countP (pairHit (i, j) x) = if ri < rj then 1 else 0 := by
        rw [hxe]
        rw [countP_unique_fst hnd.2 hj' _ ?hq]
        · by_cases hlt : ri < rj <;> simp [pairHit, hij, hlt, Prod.ext_iff]
        case hq =>
          intro y hy
          rcases Bool.or_eq_true_iff.mp hy with hc | hc
          · have := of_decide_eq_true (Bool.and_eq_true_iff.mp hc).2
            exact (Prod.ext_iff.mp this).2
          · have := of_decide_eq_true (Bool.and_eq_true_iff.mp hc).2
            exact absurd (Prod.ext_iff.mp this).2 hij
      have hrest : countInc (i, j) rest = 0 :=
        countInc_zero_left (k := (i, j)) (hxi ▸ hnd.1)
      rw [hcp, hrest, Nat.add_zero]
    · by_cases hxj : x.1 = j
      · have hxe : x = (j, rj) := by
          rcases List.mem_cons.mp hj with h2 | h2
          · exact h2.symm
          · exact absurd (hxj ▸ List.mem_map_of_mem Prod.fst h2) hnd.1
        have hi' : (i, ri) ∈ rest := by
          rcases List.mem_cons.mp hi with h1 | h1
          · exact absurd ((Prod.ext_iff.mp h1).1.trans hxj) hij
          · exact h1
        have hcp : rest.countP (pairHit (i, j) x) = if ri < rj then 1 else 0 := by
          rw [hxe]
          rw [countP_unique_fst (r := ri) hnd.2 hi' _ ?hq2]
          · by_cases hlt : ri < rj <;> simp [pairHit, hij, Ne.symm hij, hlt, Prod.ext_iff]
          case hq2 =>
            intro y hy
            rcases Bool.or_eq_true_iff.mp hy with hc | hc
            · have := of_decide_eq_true (Bool.and_eq_true_iff.mp hc).2
              exact absurd (Prod.ext_iff.mp this).1 (Ne.symm hij)
            · have := of_decide_eq_true (Bool.and_eq_true_iff.mp hc).2
              exact (Prod.ext_iff.mp this).1
        have hrest : countInc (i, j) rest = 0 :=
          countInc_zero_right (k := (i, j)) (hxj ▸ hnd.1)
        rw [hcp, hrest, Nat.add_zero]
      · have hi' : (i, ri) ∈ rest := by
          rcases List.mem_cons.mp hi with h1 | h1
          · exact absurd (Prod.ext_iff.mp h1).1.symm hxi
          · exact h1
        have hj' : (j, rj) ∈ rest := by
          rcases List.mem_cons.mp hj with h2 | h2
          · exact absurd (Prod.ext_iff.mp h2).1.symm hxj
          · exact h2
        have hcp : rest.countP (pairHit (i, j) x) = 0 := by
          rw [List.countP_eq_zero]
          intro y hy hhit
          rcases Bool.or_eq_true_iff.mp hhit with hc | hc
          · have := of_decide_eq_true (Bool.and_eq_true_iff.mp hc).2
            exact hxi (Prod.ext_iff.mp this).1
          · have := of_decide_eq_true (Bool.and_eq_true_iff.mp hc).2
            exact hxj (Prod.ext_iff.mp this).2
        rw [hcp, ih hnd.2 hi' hj', Nat.zero_add]

theorem ranked_add_weighted_ok_state (t : CondorcetTally α) (vote : List (α × ℕ)) (w : ℕ)
    (hok : (ranked_add_weighted t vote w).1 = Except.ok ()) :
    (ranked_add_weighted t vote w).2.running_total =
      add_ranked_candidate_ids w (ranked_mapped_candidates t vote) t.running_total := by
  unfold ranked_add_weighted at *
  by_cases hc : t.check_votes = true ∧ (check_ranked_vote t vote).isOk = false
  · exfalso
    rw [if_pos hc] at hok
    cases he : check_ranked_vote t vote with
    | ok u => rw [he] at hc; simp [Except.isOk, Except.toBool] at hc
    | error e => rw [he] at hok; simp [Except.map] at hok
  · rw [if_neg hc]

/-- C1: on a checked tally, an accepted weighted ranked ballot bumps the
pairwise count table entry `(id a, id b)` by exactly `weight` for every pair
of distinct interned candidates whose effective ranks satisfy
`rank a < rank b` (omitted candidates ranked at `max_rank + 1`, tied with
each other), leaves both directions untouched for pairs of equal effective
rank, and changes no other table entry. -/
theorem claim_C1 (t : CondorcetTally α) (vote : List (α × ℕ)) (w : ℕ)
    (hchk : t.check_votes = true)
    (hkeys : (t.candidates.map Prod.fst).Nodup)
    (hids : (t.candidates.map Prod.snd).Nodup)
    (hok : (ranked_add_weighted t vote w).1 = Except.ok ()) :
    (∀ a ia b ib, (a, ia) ∈ t.candidates → (b, ib) ∈ t.candidates → a ≠ b →
        effRank t vote a < effRank t vote b →
        cnt (ranked_add_weighted t vote w).2 ia ib = cnt t ia ib + w) ∧
    (∀ a ia b ib, (a, ia) ∈ t.candidates → (b, ib) ∈ t.candidates → a ≠ b →
        effRank t vote a = effRank t vote b →
        cnt (ranked_add_weighted t vote w).2 ia ib = cnt t ia ib) ∧
    (∀ p : ℕ × ℕ,
        (∀ a ia b ib, (a, ia) ∈ t.candidates → (b, ib) ∈ t.candidates → a ≠ b →
            effRank t vote a < effRank t vote b → p ≠ (ia, ib)) →
        lookup0 (ranked_add_weighted t vote w).2.running_total p =
          lookup0 t.running_total p) := by
  have hstate := ranked_add_weighted_ok_state t vote w hok
  have hmain : ∀ p : ℕ × ℕ,
      lookup0 (ranked_add_weighted t vote w).2.running_total p =
        lookup0 t.running_total p +
          w * countInc p (t.candidates.map (fun e => (e.2, effRank t vote e.1))) := by
    intro p
    rw [hstate, lookup0_add_ranked_candidate_ids, countInc_perm p (ranked_mapped_perm t vote)]
  set L := t.candidates.map (fun e => (e.2, effRank t vote e.1)) with hL
  have hLfst : L.map Prod.fst = t.candidates.map Prod.snd := by
    rw [hL, List.map_map]; rfl
  have hndL : (L.map Prod.fst).Nodup := by rw [hLfst]; exact hids
  refine ⟨?_, ?_, ?_⟩
  · intro a ia b ib ha hb hab hlt
    have hia : (ia, effRank t vote a) ∈ L := List.mem_map.mpr ⟨(a, ia), ha, rfl⟩
    have hib : (ib, effRank t vote b) ∈ L := List.mem_map.mpr ⟨(b, ib), hb, rfl⟩
    have hne : ia ≠ ib := fun h => hab (snd_injOn hids ha hb h)
    have hone := countInc_eq_one hndL hia hib hne
    rw [cnt, cnt, hmain (ia, ib), hone, if_pos hlt, Nat.mul_one]
  · intro a ia b ib ha hb hab heq
    have hia : (ia, effRank t vote a) ∈ L := List.mem_map.mpr ⟨(a, ia), ha, rfl⟩
    have hib : (ib, effRank t vote b) ∈ L := List.mem_map.mpr ⟨(b, ib), hb, rfl⟩
    have hne : ia ≠ ib := fun h => hab (snd_injOn hids ha hb h)
    have hone := countInc_eq_one hndL hia hib hne
    have hnlt : ¬ effRank t vote a < effRank t vote b := by rw [heq]; exact lt_irrefl _
    rw [cnt, cnt, hmain (ia, ib), hone, if_neg hnlt, Nat.mul_zero, Nat.add_zero]
  · intro p hno
    obtain ⟨p1, p2⟩ := p
    rw [hmain (p1, p2)]
    by_cases h1 : p1 ∈ L.map Prod.fst
    · by_cases h2 : p2 ∈ L.map Prod.fst
      · by_cases h12 : p1 = p2
        · rw [countInc_zero_diag hndL h12, Nat.mul_zero, Nat.add_zero]
        · obtain ⟨ea, hea, hea2⟩ := List.mem_map.mp (hLfst ▸ h1)
          obtain ⟨eb, heb, heb2⟩ := List.mem_map.mp (hLfst ▸ h2)
          have hmema : (ea.1, p1) ∈ t.candidates := by rw [← hea2]; exact hea
          have hmemb : (eb.1, p2) ∈ t.candidates := by rw [← heb2]; exact heb
          have hne : ea.1 ≠ eb.1 := fun h => h12 (fst_injOn hkeys (h ▸ hmema) hmemb)
          have hia : (p1, effRank t vote ea.1) ∈ L := List.mem_map.mpr ⟨(ea.1, p1), hmema, rfl⟩
          have hib : (p2, effRank t vote eb.1) ∈ L := List.mem_map.mpr ⟨(eb.1, p2), hmemb, rfl⟩
          have hone := countInc_eq_one hndL hia hib h12
          have hnot : ¬ effRank t vote ea.1 < effRank t vote eb.1 := fun hlt =>
            hno ea.1 p1 eb.1 p2 hmema hmemb hne hlt rfl
          rw [hone, if_neg hnot, Nat.mul_zero, Nat.add_zero]
      · rw [countInc_zero_right (k := (p1, p2)) h2, Nat.mul_zero, Nat.add_zero]
    · rw [countInc_zero_left (k := (p1, p2)) h1, Nat.mul_zero, Nat.add_zero]

/-- Witness for C1: a concrete three-candidate checked tally accepting the
ranked ballot `[(A, 0), (B, 1)]` with weight 5; candidate `A` (id 0)
effectively outranks candidate `B` (id 1), and the table entry `(0, 1)` grows
by exactly 5. -/
theorem claim_C1_witness :
    effRank (with_candidates 1 [0, 1, 2] : CondorcetTally ℕ) [(0, 0), (1, 1)] 0 <
      effRank (with_candidates 1 [0, 1, 2] : CondorcetTally ℕ) [(0, 0), (1, 1)] 1 ∧
    cnt (ranked_add_weighted (with_candidates 1 [0, 1, 2] : CondorcetTally ℕ)
        [(0, 0), (1, 1)] 5).2 0 1 =
      cnt (with_candidates 1 [0, 1, 2] : CondorcetTally ℕ) 0 1 + 5 :=
  ⟨by decide,
    (claim_C1 (with_candidates 1 [0, 1, 2]) [(0, 0), (1, 1)] 5 (by decide) (by decide)
        (by decide) (by rfl)).1 0 0 1 1 (by decide) (by decide) (by decide) (by decide)⟩

theorem check_duplicates_transitive_vote_dup {vote : List α} (h : ¬ vote.Nodup) :
    check_duplicates_transitive_vote vote =
      Except.error TallyError.VoteHasDuplicateCandidates := by
  induction vote with
  | nil => exact absurd List.nodup_nil h
  | cons c rest ih =>
    rw [check_duplicates_transitive_vote]
    by_cases hc : c ∈ rest
    · rw [if_pos hc]
    · rw [if_neg hc]
      apply ih
      intro hnd
      exact h (List.nodup_cons.mpr ⟨hc, hnd⟩)

theorem check_duplicates_ranked_vote_dup {vote : List (α × ℕ)}
    (h : ¬ (vote.map Prod.fst).Nodup) :
    check_duplicates_ranked_vote vote =
      Except.error TallyError.VoteHasDuplicateCandidates := by
  induction vote with
  | nil => exact absurd List.nodup_nil h
  | cons c rest ih =>
    rw [check_duplicates_ranked_vote]
    by_cases hc : c.1 ∈ rest.map Prod.fst
    · rw [if_pos hc]
    · rw [if_neg hc]
      apply ih
      intro hnd
      rw [List.map_cons] at h
      exact h (List.nodup_cons.mpr ⟨hc, hnd⟩)

/-- C7: on a checked tally, a ballot listing some candidate twice (all of its
candidates being interned) is rejected by `add`, `add_weighted`, `ranked_add`
and `ranked_add_weighted` with the duplicate-candidate error, and the tally
state — in particular the pairwise count table — is returned exactly as it
was (all-or-nothing). -/
theorem claim_C7 (t : CondorcetTally α) (vote : List α) (rvote : List (α × ℕ)) (w : ℕ)
    (hchk : t.check_votes = true)
    (hknown : ∀ c ∈ vote, (alookup t.candidates c).isSome)
    (hdup : ¬ vote.Nodup)
    (hrknown : ∀ c ∈ rvote, (alookup t.candidates c.1).isSome)
    (hrdup : ¬ (rvote.map Prod.fst).Nodup) :
    add t vote = (Except.error TallyError.VoteHasDuplicateCandidates, t) ∧
    add_weighted t vote w = (Except.error TallyError.VoteHasDuplicateCandidates, t) ∧
    ranked_add t rvote = (Except.error TallyError.VoteHasDuplicateCandidates, t) ∧
    ranked_add_weighted t rvote w = (Except.error TallyError.VoteHasDuplicateCandidates, t) := by
  have hcv : check_vote t vote = Except.error TallyError.VoteHasDuplicateCandidates := by
    unfold check_vote
    rw [if_pos (List.all_eq_true.mpr (fun c hc => hknown c hc))]
    exact check_duplicates_transitive_vote_dup hdup
  have hcrv : check_ranked_vote t rvote =
      Except.error TallyError.VoteHasDuplicateCandidates := by
    unfold check_ranked_vote
    rw [if_pos (List.all_eq_true.mpr (fun c hc => hrknown c hc))]
    exact check_duplicates_ranked_vote_dup hrdup
  have hw : add_weighted t vote w =
      (Except.error TallyError.VoteHasDuplicateCandidates, t) := by
    unfold add_weighted
    rw [if_pos ⟨hchk, by rw [hcv]; rfl⟩, hcv]
    rfl
  have hrw : ranked_add_weighted t rvote w =
      (Except.error TallyError.VoteHasDuplicateCandidates, t) := by
    unfold ranked_add_weighted
    rw [if_pos ⟨hchk, by rw [hcrv]; rfl⟩, hcrv]
    rfl
  have hw1 : add_weighted t vote 1 =
      (Except.error TallyError.VoteHasDuplicateCandidates, t) := by
    unfold add_weighted
    rw [if_pos ⟨hchk, by rw [hcv]; rfl⟩, hcv]
    rfl
  have hrw1 : ranked_add_weighted t rvote 1 =
      (Except.error TallyError.VoteHasDuplicateCandidates, t) := by
    unfold ranked_add_weighted
    rw [if_pos ⟨hchk, by rw [hcrv]; rfl⟩, hcrv]
    rfl
  exact ⟨hw1, hw, hrw1, hrw⟩

/-- Witness for C7: the checked two-candidate tally rejects the duplicate
ballot `[A, B, A]` (and its ranked counterpart) and is left unchanged. -/
theorem claim_C7_witness :
    ¬ ([0, 1, 0] : List ℕ).Nodup ∧
    add_weighted (with_candidates 2 [0, 1] : CondorcetTally ℕ) [0, 1, 0] 3 =
      (Except.error TallyError.VoteHasDuplicateCandidates, with_candidates 2 [0, 1]) :=
  ⟨by decide,
    (claim_C7 (with_candidates 2 [0, 1]) [0, 1, 0] [(0, 0), (1, 1), (0, 2)] 3 (by decide)
        (by decide) (by decide) (by decide) (by decide)).2.1⟩

/-- C3 counterexample material: the interner bug. Re-adding an existing
candidate reassigns its id to the current `candidates.len()`, and a later
fresh candidate then receives the same id, so two interned candidates share
one id and the dense-range bijection is broken. The failing input interns
`A`, `B`, `A` again, then `C` (here `A = 0`, `B = 1`, `C = 2`). -/
theorem claim_C3_code_bug :
    alookup (add_candidate (add_candidate (add_candidate (add_candidate
        (new 1 : CondorcetTally ℕ) 0) 1) 0) 2).candidates 0 = some 2 ∧
    alookup (add_candidate (add_candidate (add_candidate (add_candidate
        (new 1 : CondorcetTally ℕ) 0) 1) 0) 2).candidates 2 = some 2 ∧
    alookup (add_candidate (add_candidate (add_candidate
        (new 1 : CondorcetTally ℕ) 0) 1) 0).candidates 0 ≠ some 0 := by
  decide

end CondorcetTally

/-- Predicate facts about `takeWhile`: every member satisfies the predicate. -/
theorem mem_takeWhile_pred {β : Type} {p : β → Bool} :
    ∀ {l : List β} {x : β}, x ∈ l.takeWhile p → p x = true := by
  intro l
  induction l with
  | nil => intro x hx; cases hx
  | cons y rest ih =>
    intro x hx
    rw [List.takeWhile_cons] at hx
    by_cases hy : p y
    · rw [if_pos hy] at hx
      rcases List.mem_cons.mp hx with h | h
      · rw [h]; exact hy
      · exact ih h
    · rw [if_neg hy] at hx; cases hx

/-- The head of `dropWhile` fails the predicate. -/
theorem head_dropWhile_false {β : Type} {p : β → Bool} :
    ∀ {l : List β} {y : β} {ys : List β}, l.dropWhile p = y :: ys → p y = false := by
  intro l
  induction l with
  | nil => intro y ys h; cases h
  | cons z rest ih =>
    intro y ys h
    rw [List.dropWhile_cons] at h
    by_cases hz : p z
    · rw [if_pos hz] at h; exact ih h
    · rw [if_neg hz] at h
      cases h
      cases hpz : p z with
      | false => rfl
      | true => exact absurd hpz hz

/-- Ranked winners collection (src/result.rs `RankedWinners`): winners as a
list of (candidate, rank) pairs, plus the originally requested number of
winners. -/
structure RankedWinners (α : Type) where
  winners : List (α × ℕ)
  num_winners : ℕ
deriving DecidableEq, Repr

namespace RankedWinners

variable {α : Type}

/-- Stable sort of (candidate, rank) pairs by ascending rank
(src/result.rs `RankedWinners::sort`, a stable `sort_by` on rank; insertion
sort computes the same list). -/
def sortByRank [DecidableEq α] (l : List (α × ℕ)) : List (α × ℕ) :=
  l.insertionSort (fun a b => a.2 ≤ b.2)

/-- Walking loop of src/result.rs `RankedWinners::from_ranked`: push each
(candidate, rank) entry unless the accumulated winner count has reached
`num_winners` and this entry's rank differs from the previous entry's rank
(`prev_rank` starts at 0). -/
def fromRankedAux (nw : ℕ) : List (α × ℕ) → ℕ → List (α × ℕ) → List (α × ℕ)
  | [], _, acc => acc
  | e :: rest, prev, acc =>
    if nw ≤ acc.length ∧ e.2 ≠ prev then acc
    else fromRankedAux nw rest e.2 (acc ++ [e])

/-- Create winners from a ranked list
(src/result.rs `RankedWinners::from_ranked`). -/
def from_ranked [DecidableEq α] (ranked : List (α × ℕ)) (num_winners : ℕ) :
    RankedWinners α :=
  { winners := sortByRank (fromRankedAux num_winners ranked 0 []),
    num_winners := num_winners }

/-- Overflow check (src/result.rs `check_overflow`): actual number of winners
strictly exceeds the requested number. -/
def check_overflow (w : RankedWinners α) : Bool :=
  decide (w.num_winners < w.winners.length)

/-- Closed form of the walking loop, parametrised by the remaining budget
`nw - acc.length` instead of the accumulator. -/
def frTake : ℕ → ℕ → List (α × ℕ) → List (α × ℕ)
  | _, _, [] => []
  | 0, prev, e :: rest => if e.2 = prev then e :: frTake 0 e.2 rest else []
  | b + 1, _, e :: rest => e :: frTake b e.2 rest

theorem fromRankedAux_eq_frTake (nw : ℕ) :
    ∀ (l : List (α × ℕ)) (prev : ℕ) (acc : List (α × ℕ)),
      fromRankedAux nw l prev acc = acc ++ frTake (nw - acc.length) prev l := by
  intro l
  induction l with
  | nil => intro prev acc; simp [fromRankedAux, frTake]
  | cons e rest ih =>
    intro prev acc
    rw [fromRankedAux]
    cases hb : nw - acc.length with
    | zero =>
      have hle : nw ≤ acc.length := by omega
      by_cases he : e.2 = prev
      · rw [if_neg (by simp [he]), ih]
        have : nw - (acc ++ [e]).length = 0 := by simp; omega
        rw [this, frTake, if_pos he]
        simp
      · rw [if_pos ⟨hle, he⟩, frTake, if_neg he]
        simp
    | succ b =>
      have hlt : ¬ nw ≤ acc.length := by omega
      rw [if_neg (by intro hc; exact hlt hc.1), ih]
      have : nw - (acc ++ [e]).length = b := by simp; omega
      rw [this, frTake]
      simp

theorem frTake_zero (prev : ℕ) :
    ∀ l : List (α × ℕ), frTake 0 prev l = l.takeWhile (fun e => e.2 = prev) := by
  intro l
  induction l generalizing prev with
  | nil => rfl
  | cons e rest ih =>
    rw [frTake, List.takeWhile_cons]
    by_cases he : e.2 = prev
    · rw [if_pos he, ih e.2, he]
      simp [he]
    · rw [if_neg he]
      simp [he]

theorem frTake_all {b : ℕ} {prev : ℕ} {l : List (α × ℕ)} (h : l.length ≤ b) :
    frTake b prev l = l := by
  induction l generalizing b prev with
  | nil => cases b <;> rfl
  | cons e rest ih =>
    cases b with
    | zero => simp at h
    | succ b =>
      rw [frTake, ih (by simpa using h)]

/-- Rank stored at position `i` of a ranked list (0 when out of range). -/
def rankAt (l : List (α × ℕ)) (i : ℕ) : ℕ :=
  ((l[i]?).map Prod.snd).getD 0

theorem frTake_cut {b : ℕ} (hb : 1 ≤ b) :
    ∀ {l : List (α × ℕ)} {prev : ℕ}, b ≤ l.length →
      frTake b prev l =
        l.take b ++ (l.drop b).takeWhile (fun e => e.2 = rankAt l (b - 1)) := by
  induction b with
  | zero => omega
  | succ b ih =>
    intro l prev hl
    cases l with
    | nil => simp at hl
    | cons e rest =>
      rw [frTake]
      cases b with
      | zero =>
        rw [frTake_zero]
        have hr : rankAt (e :: rest) 0 = e.2 := by simp [rankAt]
        simp only [Nat.add_sub_cancel, hr, List.take_succ_cons, List.take_zero,
          List.drop_succ_cons, List.drop_zero]
        rfl
      | succ b' =>
        have hb1 : 1 ≤ b' + 1 := by omega
        have hbr : b' + 1 ≤ rest.length := by
          simp only [List.length_cons] at hl; omega
        rw [ih hb1 hbr]
        have hr : rankAt rest (b' + 1 - 1) = rankAt (e :: rest) (b' + 1 + 1 - 1) := by
          unfold rankAt
          rw [Nat.add_sub_cancel, Nat.add_sub_cancel, List.getElem?_cons_succ]
        rw [hr]
        simp only [List.take_succ_cons, List.drop_succ_cons, List.cons_append]

theorem from_ranked_winners [DecidableEq α] (L : List (α × ℕ)) (N : ℕ) :
    (from_ranked L N).winners = sortByRank (frTake N 0 L) := by
  unfold from_ranked
  rw [fromRankedAux_eq_frTake]
  simp

/-- C4: for every requested winner count `N ≥ 1` and rank-grouped (ascending)
ranked list, `from_ranked` keeps whole rank groups: when the list is short it
is returned entirely; when a tie group spans the `N`-th and `(N+1)`-th
positions the winner list exceeds `N` and `check_overflow` reports `true`;
otherwise exactly `N` winners are produced and `check_overflow` is `false`;
and every in-progress rank group is included in full (any entry ranked at or
above some included entry is itself included). -/
theorem claim_C4 [DecidableEq α] (L : List (α × ℕ)) (N : ℕ) (hN : 1 ≤ N)
    (hsort : List.Pairwise (fun a b : α × ℕ => a.2 ≤ b.2) L) :
    (L.length ≤ N →
      (from_ranked L N).winners.length = L.length ∧
        check_overflow (from_ranked L N) = false) ∧
    (N < L.length → rankAt L (N - 1) = rankAt L N →
      N < (from_ranked L N).winners.length ∧
        check_overflow (from_ranked L N) = true) ∧
    (N < L.length → rankAt L (N - 1) ≠ rankAt L N →
      (from_ranked L N).winners.length = N ∧
        check_overflow (from_ranked L N) = false) ∧
    (∀ p ∈ L, ∀ q ∈ (from_ranked L N).winners, p.2 ≤ q.2 →
      p ∈ (from_ranked L N).winners) := by
  have hlen : (from_ranked L N).winners.length = (frTake N 0 L).length := by
    rw [from_ranked_winners]
    exact (List.perm_insertionSort _ _).length_eq
  have hmem : ∀ a, a ∈ (from_ranked L N).winners ↔ a ∈ frTake N 0 L := by
    intro a
    rw [from_ranked_winners]
    exact (List.perm_insertionSort _ _).mem_iff
  have hnw : (from_ranked L N).num_winners = N := rfl
  have hover : ∀ m : ℕ, (from_ranked L N).winners.length = m →
      check_overflow (from_ranked L N) = decide (N < m) := by
    intro m hm
    rw [check_overflow, hnw, hm]
  by_cases hcase : L.length ≤ N
  · -- short list: everything is kept
    have hfr : frTake N 0 L = L := frTake_all hcase
    have hl : (from_ranked L N).winners.length = L.length := by rw [hlen, hfr]
    refine ⟨fun _ => ⟨hl, ?_⟩, fun hlt => absurd hlt (by omega), fun hlt => absurd hlt (by omega),
      fun p hp q _ _ => (hmem p).mpr (by rw [hfr]; exact hp)⟩
    rw [hover _ hl, decide_eq_false]
    omega
  · push_neg at hcase
    set R := rankAt L (N - 1) with hR
    have hcut : frTake N 0 L =
        L.take N ++ (L.drop N).takeWhile (fun e => e.2 = R) :=
      frTake_cut hN (le_of_lt hcase)
    -- the element at the cut
    obtain ⟨d0, ds, hdrop⟩ : ∃ d0 ds, L.drop N = d0 :: ds := by
      cases hd : L.drop N with
      | nil =>
        exfalso
        have := List.length_drop N L
        rw [hd] at this
        simp at this
        omega
      | cons d0 ds => exact ⟨d0, ds, rfl⟩
    have hd0 : rankAt L N = d0.2 := by
      unfold rankAt
      have h1 : L[N]? = (L.drop N)[0]? := by rw [List.getElem?_drop, Nat.add_zero]
      rw [h1, hdrop]
      simp
    -- the element ending the first N slots
    have hN1 : N - 1 < L.length := by omega
    obtain ⟨el, hel⟩ : ∃ el, L[N - 1]? = some el := ⟨L[N - 1], List.getElem?_eq_getElem hN1⟩
    have helR : el.2 = R := by
      rw [hR]
      unfold rankAt
      rw [hel]
      simp
    have htakeN : L.take N = L.take (N - 1) ++ [el] := by
      have : N = (N - 1) + 1 := by omega
      rw [this, List.take_succ, hel]
      rfl
    have helmem : el ∈ L.take N := by rw [htakeN]; exact List.mem_append_right _ (by simp)
    -- Claim A: every kept entry has rank at most R
    have claimA : ∀ q ∈ frTake N 0 L, q.2 ≤ R := by
      intro q hq
      rw [hcut] at hq
      rcases List.mem_append.mp hq with h | h
      · rw [htakeN] at h
        rcases List.mem_append.mp h with h' | h'
        · have hpw : List.Pairwise (fun a b : α × ℕ => a.2 ≤ b.2) (L.take N) :=
            List.Pairwise.sublist (List.take_sublist N L) hsort
          rw [htakeN] at hpw
          have := (List.pairwise_append.mp hpw).2.2 q h' el (by simp)
          omega
        · have : q = el := by simpa using h'
          rw [this, helR]
      · have := mem_takeWhile_pred h
        have : q.2 = R := by simpa using this
        omega
    -- R bounds the dropped part from below
    have hbelow : ∀ b ∈ L.drop N, R ≤ b.2 := by
      intro b hb
      have hpw := hsort
      rw [← List.take_append_drop N L] at hpw
      have := (List.pairwise_append.mp hpw).2.2 el helmem b hb
      omega
    -- Claim B: every entry cut off after the kept group has rank above R
    have claimB : ∀ x ∈ (L.drop N).dropWhile (fun e => decide (e.2 = R)), R < x.2 := by
      intro x hx
      cases hD : (L.drop N).dropWhile (fun e => decide (e.2 = R)) with
      | nil => rw [hD] at hx; cases hx
      | cons e0 etail =>
        have he0ne : ¬ e0.2 = R := by
          have := head_dropWhile_false hD
          simpa using this
        have he0mem : e0 ∈ L.drop N := by
          have hsub : ((L.drop N).dropWhile (fun e => decide (e.2 = R))).Sublist (L.drop N) :=
            List.dropWhile_sublist _
          exact hsub.mem (hD ▸ List.mem_cons_self e0 etail)
        have he0R : R < e0.2 := lt_of_le_of_ne (hbelow e0 he0mem) (fun h => he0ne h.symm)
        have hpwD : List.Pairwise (fun a b : α × ℕ => a.2 ≤ b.2)
            ((L.drop N).dropWhile (fun e => decide (e.2 = R))) :=
          List.Pairwise.sublist
            ((List.dropWhile_sublist _).trans (List.drop_sublist N L)) hsort
        rw [hD] at hx hpwD
        rcases List.mem_cons.mp hx with h | h
        · rw [h]; exact he0R
        · have := (List.pairwise_cons.mp hpwD).1 x h
          omega
    refine ⟨fun hle => absurd hle (by omega), ?_, ?_, ?_⟩
    · -- tie spanning the cut
      intro _ htie
      have hpred : d0.2 = R := by rw [← hd0, ← htie]
      have hlenF : N < (frTake N 0 L).length := by
        rw [hcut, List.length_append, hdrop, List.takeWhile_cons, if_pos (by simpa using hpred)]
        have : (L.take N).length = N := by
          rw [List.length_take]
          omega
        simp [this]
      have hl : N < (from_ranked L N).winners.length := by rw [hlen]; exact hlenF
      refine ⟨hl, ?_⟩
      rw [hover _ rfl, decide_eq_true]
      exact hl
    · -- no tie at the cut
      intro _ hne
      have hpred : ¬ d0.2 = R := by rw [← hd0]; exact fun h => hne (h.symm)
      have hlenF : (frTake N 0 L).length = N := by
        rw [hcut, List.length_append, hdrop, List.takeWhile_cons, if_neg (by simpa using hpred)]
        rw [List.length_take]
        simp
        omega
      have hl : (from_ranked L N).winners.length = N := by rw [hlen]; exact hlenF
      refine ⟨hl, ?_⟩
      rw [hover _ hl, decide_eq_false]
      omega
    · -- in-progress rank groups are included in full
      intro p hp q hq hpq
      have hqR : q.2 ≤ R := claimA q ((hmem q).mp hq)
      rw [hmem]
      have hsplit : L = frTake N 0 L ++ (L.drop N).dropWhile (fun e => decide (e.2 = R)) := by
        rw [hcut, List.append_assoc, List.takeWhile_append_dropWhile, List.take_append_drop]
      rw [hsplit] at hp
      rcases List.mem_append.mp hp with h | h
      · exact h
      · exact absurd (claimB p h) (by omega)

/-- Witness for C4: with `N = 2` and the ranked list
`[(0,0), (1,1), (2,1), (3,2)]` the rank-1 tie group spans the 2nd and 3rd
positions, so three winners are returned and the overflow flag is set. -/
theorem claim_C4_witness :
    (1 ≤ 2 ∧ 2 < ([(0, 0), (1, 1), (2, 1), (3, 2)] : List (ℕ × ℕ)).length ∧
      rankAt ([(0, 0), (1, 1), (2, 1), (3, 2)] : List (ℕ × ℕ)) 1 =
        rankAt ([(0, 0), (1, 1), (2, 1), (3, 2)] : List (ℕ × ℕ)) 2) ∧
    (2 < (from_ranked ([(0, 0), (1, 1), (2, 1), (3, 2)] : List (ℕ × ℕ)) 2).winners.length ∧
      check_overflow (from_ranked ([(0, 0), (1, 1), (2, 1), (3, 2)] : List (ℕ × ℕ)) 2) = true) :=
  ⟨by refine ⟨by decide, by decide, by decide⟩,
    (claim_C4 ([(0, 0), (1, 1), (2, 1), (3, 2)] : List (ℕ × ℕ)) 2 (by decide)
        (by decide)).2.1 (by decide) (by decide)⟩

/-- C5 counterexample: `from_ranked(ranked, 0)` does not return the full
ranking. On input `[(10, 0), (20, 1)]` with `num_winners = 0` only the
leading rank-0 entry survives; the entry `(20, 1)` of the input is dropped. -/
theorem claim_C5_counterexample :
    (from_ranked ([(10, 0), (20, 1)] : List (ℕ × ℕ)) 0).winners = [(10, 0)] ∧
    (20, 1) ∈ ([(10, 0), (20, 1)] : List (ℕ × ℕ)) ∧
    (20, 1) ∉ (from_ranked ([(10, 0), (20, 1)] : List (ℕ × ℕ)) 0).winners := by
  decide

/-- C5 amended: with a requested winner count of zero, `from_ranked` returns
exactly the maximal leading run of rank-0 entries of the input (in
particular the empty list whenever the first entry's rank is nonzero) — not
the full ranking. -/
theorem claim_C5_amended [DecidableEq α] (L : List (α × ℕ)) :
    (from_ranked L 0).winners = L.takeWhile (fun e => e.2 = 0) := by
  rw [from_ranked_winners]
  have h0 : frTake 0 0 L = L.takeWhile (fun e => e.2 = (0 : ℕ)) := frTake_zero 0 L
  rw [h0]
  apply List.Sorted.insertionSort_eq
  apply List.pairwise_of_forall_mem_list
  intro a ha b hb
  have ha0 : a.2 = 0 := by simpa using mem_takeWhile_pred ha
  have hb0 : b.2 = 0 := by simpa using mem_takeWhile_pred hb
  omega

end RankedWinners

/-- Preference graph (petgraph `Graph<T, (C, C)>` as used by `build_graph`):
candidate nodes in insertion order (`add_node` hands out consecutive
indices), and directed edges `(source node, target node, count pair)`,
flattened to `(src, dst, support for dst, support for src)`. -/
structure PGraph (α : Type) where
  nodes : List α
  edges : List (ℕ × ℕ × ℕ × ℕ)
deriving DecidableEq, Repr

/-- Number of edges of a graph joining nodes `n1` and `n2` in either
direction. -/
def edgesBetween {α : Type} (g : PGraph α) (n1 n2 : ℕ) : ℕ :=
  g.edges.countP (fun e =>
    (decide (e.1 = n1) && decide (e.2.1 = n2)) || (decide (e.1 = n2) && decide (e.2.1 = n1)))

theorem edgesBetween_symm {α : Type} (g : PGraph α) (n1 n2 : ℕ) :
    edgesBetween g n1 n2 = edgesBetween g n2 n1 := by
  unfold edgesBetween
  apply List.countP_congr
  intro e _
  constructor <;> intro h <;> rcases Bool.or_eq_true_iff.mp h with h | h <;>
    simp [h] at * <;> simp [h]

namespace CondorcetTally

variable {α : Type} [DecidableEq α]

/-- The `graph_ids` map of src/condorcet.rs `build_graph`: candidate id to
graph node index, where node indices are handed out in candidate-map
iteration order. -/
def graphIds (t : CondorcetTally α) : List (ℕ × ℕ) :=
  t.candidates.enum.map (fun p => (p.2.2, p.1))

/-- Graph node index of a candidate id (`graph_ids.get(id).unwrap()`). -/
def nodeOfId (t : CondorcetTally α) (id : ℕ) : ℕ :=
  (alookup (graphIds t) id).getD 0

/-- Build the pairwise-competition graph (src/condorcet.rs `build_graph`):
one node per candidate; for every running-total entry `((c1, c2), v1)` whose
reverse count `v2` (zero when absent) satisfies `v1 >= v2`, a directed edge
from `c2`'s node to `c1`'s node labelled `(v1, v2)`. -/
def build_graph (t : CondorcetTally α) : PGraph α :=
  { nodes := t.candidates.map Prod.fst,
    edges := t.running_total.filterMap (fun e =>
      if lookup0 t.running_total (e.1.2, e.1.1) ≤ e.2 then
        some (nodeOfId t e.1.2, nodeOfId t e.1.1, e.2,
          lookup0 t.running_total (e.1.2, e.1.1))
      else none) }

theorem graphIds_keys (t : CondorcetTally α) :
    (graphIds t).map Prod.fst = t.candidates.map Prod.snd := by
  unfold graphIds
  rw [List.map_map]
  have h1 : (Prod.fst ∘ fun p : ℕ × (α × ℕ) => (p.2.2, p.1)) =
      Prod.snd ∘ (Prod.snd : ℕ × (α × ℕ) → α × ℕ) := rfl
  rw [h1, ← List.map_map, List.enum_map_snd]

theorem graphIds_lookup (t : CondorcetTally α) {i idx : ℕ}
    (h : alookup (graphIds t) i = some idx) :
    (t.candidates.map Prod.snd)[idx]? = some i := by
  have hmem : (i, idx) ∈ graphIds t := alookup_mem h
  unfold graphIds at hmem
  obtain ⟨p, hp, hpe⟩ := List.mem_map.mp hmem
  have h1 : p.2.2 = i := congrArg Prod.fst hpe
  have h2 : p.1 = idx := congrArg Prod.snd hpe
  have hget : t.candidates[p.1]? = some p.2 := List.mem_enum_iff_getElem?.mp hp
  rw [List.getElem?_map, ← h2, hget]
  simp [h1]

theorem nodeOfId_inj (t : CondorcetTally α) {i j : ℕ}
    (hi : i ∈ t.candidates.map Prod.snd) (hj : j ∈ t.candidates.map Prod.snd)
    (h : nodeOfId t i = nodeOfId t j) : i = j := by
  have hi' := alookup_isSome_of_mem (l := graphIds t) (k := i) (by rw [graphIds_keys]; exact hi)
  have hj' := alookup_isSome_of_mem (l := graphIds t) (k := j) (by rw [graphIds_keys]; exact hj)
  obtain ⟨idxi, hidxi⟩ := Option.isSome_iff_exists.mp hi'
  obtain ⟨idxj, hidxj⟩ := Option.isSome_iff_exists.mp hj'
  rw [nodeOfId, nodeOfId, hidxi, hidxj] at h
  simp at h
  have h1 := graphIds_lookup t hidxi
  have h2 := graphIds_lookup t hidxj
  rw [h, h2] at h1
  simpa using h1.symm

theorem lookup0_pos_alookup {κ : Type} [DecidableEq κ] {m : List (κ × ℕ)} {k : κ}
    (h : 0 < lookup0 m k) : alookup m k = some (lookup0 m k) := by
  unfold lookup0 at *
  cases hm : alookup m k with
  | none => rw [hm] at h; simp at h
  | some v => simp

/-- Part 1 of C2: characterization of the edges produced by `build_graph`. -/
theorem build_graph_edge_iff (t : CondorcetTally α) (s d a b : ℕ) :
    (s, d, a, b) ∈ (build_graph t).edges ↔
      ∃ i j, ((i, j), a) ∈ t.running_total ∧ b = cnt t j i ∧ b ≤ a ∧
        s = nodeOfId t j ∧ d = nodeOfId t i := by
  show (s, d, a, b) ∈ t.running_total.filterMap _ ↔ _
  rw [List.mem_filterMap]
  constructor
  · rintro ⟨e, he, hfe⟩
    by_cases hc : lookup0 t.running_total (e.1.2, e.1.1) ≤ e.2
    · rw [if_pos hc] at hfe
      simp only [Option.some.injEq, Prod.mk.injEq] at hfe
      obtain ⟨h1, h2, h3, h4⟩ := hfe
      refine ⟨e.1.1, e.1.2, ?_, by rw [← h4]; rfl, by rw [← h4, ← h3]; exact hc,
        h1.symm, h2.symm⟩
      rw [← h3]
      exact he
    · rw [if_neg hc] at hfe
      cases hfe
  · rintro ⟨i, j, hmem, hb, hba, hs, hd⟩
    refine ⟨((i, j), a), hmem, ?_⟩
    have hc : lookup0 t.running_total (j, i) ≤ a := by
      have h := hb ▸ hba
      exact h
    show (if lookup0 t.running_total (j, i) ≤ a then
        some (nodeOfId t j, nodeOfId t i, a, lookup0 t.running_total (j, i)) else none) =
      some (s, d, a, b)
    rw [if_pos hc, hs, hd, hb]
    rfl

theorem edgesBetween_build_graph (t : CondorcetTally α)
    (hids : (t.candidates.map Prod.snd).Nodup)
    (hsub : ∀ k ∈ t.running_total.map Prod.fst,
      k.1 ∈ t.candidates.map Prod.snd ∧ k.2 ∈ t.candidates.map Prod.snd)
    {i j : ℕ} (hi : i ∈ t.candidates.map Prod.snd) (hj : j ∈ t.candidates.map Prod.snd)
    (hij : i ≠ j) :
    edgesBetween (build_graph t) (nodeOfId t j) (nodeOfId t i) =
      t.running_total.countP (fun e => decide (e.1 = (i, j)) &&
          decide (lookup0 t.running_total (e.1.2, e.1.1) ≤ e.2)) +
      t.running_total.countP (fun e => decide (e.1 = (j, i)) &&
          decide (lookup0 t.running_total (e.1.2, e.1.1) ≤ e.2)) := by
  unfold edgesBetween
  show (t.running_total.filterMap _).countP _ = _
  rw [List.countP_filterMap]
  rw [List.countP_congr (q := fun e =>
    (decide (e.1 = (i, j)) && decide (lookup0 t.running_total (e.1.2, e.1.1) ≤ e.2)) ||
    (decide (e.1 = (j, i)) && decide (lookup0 t.running_total (e.1.2, e.1.1) ≤ e.2))) ?hcong]
  · apply countP_or_disjoint
    intro e _ ⟨h1, h2⟩
    simp only [Bool.and_eq_true, decide_eq_true_eq] at h1 h2
    have heqp : (i, j) = ((j, i) : ℕ × ℕ) := h1.1.symm.trans h2.1
    exact hij ((Prod.ext_iff.mp heqp).1)
  case hcong =>
    intro e he
    have hmemk : e.1 ∈ t.running_total.map Prod.fst := List.mem_map_of_mem Prod.fst he
    obtain ⟨hk1, hk2⟩ := hsub e.1 hmemk
    by_cases hc : lookup0 t.running_total (e.1.2, e.1.1) ≤ e.2
    · rw [if_pos hc]
      simp only [Option.map_some', Option.getD_some, Bool.or_eq_true, Bool.and_eq_true,
        decide_eq_true_eq, hc, and_true]
      constructor
      · rintro (⟨h1, h2⟩ | ⟨h1, h2⟩)
        · left
          have he2 : e.1.2 = j := nodeOfId_inj t hk2 hj h1
          have he1 : e.1.1 = i := nodeOfId_inj t hk1 hi h2
          exact Prod.ext_iff.mpr ⟨he1, he2⟩
        · right
          have he2 : e.1.2 = i := nodeOfId_inj t hk2 hi h1
          have he1 : e.1.1 = j := nodeOfId_inj t hk1 hj h2
          exact Prod.ext_iff.mpr ⟨he1, he2⟩
      · rintro (h | h)
        · obtain ⟨h1, h2⟩ := Prod.ext_iff.mp h
          left
          rw [h1, h2]
          exact ⟨rfl, rfl⟩
        · obtain ⟨h1, h2⟩ := Prod.ext_iff.mp h
          right
          rw [h1, h2]
          exact ⟨rfl, rfl⟩
    · rw [if_neg hc]
      simp [hc]

theorem edgesBetween_strict (t : CondorcetTally α)
    (hkeys : (t.running_total.map Prod.fst).Nodup)
    (hids : (t.candidates.map Prod.snd).Nodup)
    (hsub : ∀ k ∈ t.running_total.map Prod.fst,
      k.1 ∈ t.candidates.map Prod.snd ∧ k.2 ∈ t.candidates.map Prod.snd)
    {i j : ℕ} (hi : i ∈ t.candidates.map Prod.snd) (hj : j ∈ t.candidates.map Prod.snd)
    (hij : i ≠ j) (hlt : cnt t j i < cnt t i j) :
    edgesBetween (build_graph t) (nodeOfId t j) (nodeOfId t i) = 1 ∧
    (nodeOfId t j, nodeOfId t i, cnt t i j, cnt t j i) ∈ (build_graph t).edges := by
  have hpos : 0 < cnt t i j := by omega
  have hlook : alookup t.running_total (i, j) = some (cnt t i j) :=
    lookup0_pos_alookup hpos
  constructor
  · rw [edgesBetween_build_graph t hids hsub hi hj hij]
    have hc1 : t.running_total.countP (fun e => decide (e.1 = (i, j)) &&
        decide (lookup0 t.running_total (e.1.2, e.1.1) ≤ e.2)) = 1 := by
      rw [countP_keyed hkeys _ (i, j) (fun e hq => by
        simpa using (Bool.and_eq_true_iff.mp hq).1)]
      rw [hlook]
      have : lookup0 t.running_total (j, i) ≤ cnt t i j := le_of_lt hlt
      simp [this]
    have hc2 : t.running_total.countP (fun e => decide (e.1 = (j, i)) &&
        decide (lookup0 t.running_total (e.1.2, e.1.1) ≤ e.2)) = 0 := by
      rw [countP_keyed hkeys _ (j, i) (fun e hq => by
        simpa using (Bool.and_eq_true_iff.mp hq).1)]
      cases hl : alookup t.running_total (j, i) with
      | none => rfl
      | some v =>
        have hv : v = cnt t j i := by rw [cnt, lookup0, hl]; rfl
        have : ¬ lookup0 t.running_total (i, j) ≤ v := by
          rw [hv]
          show ¬ cnt t i j ≤ cnt t j i
          omega
        simp [this]
    rw [hc1, hc2]
  · rw [build_graph_edge_iff]
    exact ⟨i, j, alookup_mem hlook, rfl, le_of_lt hlt, rfl, rfl⟩

theorem edgesBetween_tie (t : CondorcetTally α)
    (hkeys : (t.running_total.map Prod.fst).Nodup)
    (hids : (t.candidates.map Prod.snd).Nodup)
    (hsub : ∀ k ∈ t.running_total.map Prod.fst,
      k.1 ∈ t.candidates.map Prod.snd ∧ k.2 ∈ t.candidates.map Prod.snd)
    {i j : ℕ} (hi : i ∈ t.candidates.map Prod.snd) (hj : j ∈ t.candidates.map Prod.snd)
    (hij : i ≠ j) (heq : cnt t i j = cnt t j i) (hpos : 0 < cnt t i j) :
    edgesBetween (build_graph t) (nodeOfId t j) (nodeOfId t i) = 2 ∧
    (nodeOfId t j, nodeOfId t i, cnt t i j, cnt t j i) ∈ (build_graph t).edges ∧
    (nodeOfId t i, nodeOfId t j, cnt t j i, cnt t i j) ∈ (build_graph t).edges := by
  have hpos' : 0 < cnt t j i := by omega
  have hlook1 : alookup t.running_total (i, j) = some (cnt t i j) :=
    lookup0_pos_alookup hpos
  have hlook2 : alookup t.running_total (j, i) = some (cnt t j i) :=
    lookup0_pos_alookup hpos'
  refine ⟨?_, ?_, ?_⟩
  · rw [edgesBetween_build_graph t hids hsub hi hj hij]
    have hc1 : t.running_total.countP (fun e => decide (e.1 = (i, j)) &&
        decide (lookup0 t.running_total (e.1.2, e.1.1) ≤ e.2)) = 1 := by
      rw [countP_keyed hkeys _ (i, j) (fun e hq => by
        simpa using (Bool.and_eq_true_iff.mp hq).1)]
      rw [hlook1]
      have : lookup0 t.running_total (j, i) ≤ cnt t i j := by
        show cnt t j i ≤ cnt t i j
        omega
      simp [this]
    have hc2 : t.running_total.countP (fun e => decide (e.1 = (j, i)) &&
        decide (lookup0 t.running_total (e.1.2, e.1.1) ≤ e.2)) = 1 := by
      rw [countP_keyed hkeys _ (j, i) (fun e hq => by
        simpa using (Bool.and_eq_true_iff.mp hq).1)]
      rw [hlook2]
      have : lookup0 t.running_total (i, j) ≤ cnt t j i := by
        show cnt t i j ≤ cnt t j i
        omega
      simp [this]
    rw [hc1, hc2]
  · rw [build_graph_edge_iff]
    exact ⟨i, j, alookup_mem hlook1, rfl, by omega, rfl, rfl⟩
  · rw [build_graph_edge_iff]
    exact ⟨j, i, alookup_mem hlook2, rfl, by omega, rfl, rfl⟩

/-- C2: `build_graph` adds, for each ordered-pair key `(i, j)` of the
pairwise count table whose count is at least the reverse count (absent
reverse read as zero), one edge from `j`'s node to `i`'s node labelled with
the pair of counts — and nothing else; consequently a pair of candidates
with at least one comparison carries exactly one edge when one direction
strictly wins, exactly two opposite equal-labelled edges on an exact tie,
and never zero edges. -/
theorem claim_C2 (t : CondorcetTally α)
    (hkeys : (t.running_total.map Prod.fst).Nodup)
    (hids : (t.candidates.map Prod.snd).Nodup)
    (hsub : ∀ k ∈ t.running_total.map Prod.fst,
      k.1 ∈ t.candidates.map Prod.snd ∧ k.2 ∈ t.candidates.map Prod.snd) :
    (∀ s d a b : ℕ, (s, d, a, b) ∈ (build_graph t).edges ↔
      ∃ i j, ((i, j), a) ∈ t.running_total ∧ b = cnt t j i ∧ b ≤ a ∧
        s = nodeOfId t j ∧ d = nodeOfId t i) ∧
    (∀ i j : ℕ, i ∈ t.candidates.map Prod.snd → j ∈ t.candidates.map Prod.snd → i ≠ j →
      0 < cnt t i j + cnt t j i →
      (cnt t j i < cnt t i j →
        edgesBetween (build_graph t) (nodeOfId t j) (nodeOfId t i) = 1 ∧
        (nodeOfId t j, nodeOfId t i, cnt t i j, cnt t j i) ∈ (build_graph t).edges) ∧
      (cnt t i j = cnt t j i →
        edgesBetween (build_graph t) (nodeOfId t j) (nodeOfId t i) = 2 ∧
        (nodeOfId t j, nodeOfId t i, cnt t i j, cnt t j i) ∈ (build_graph t).edges ∧
        (nodeOfId t i, nodeOfId t j, cnt t j i, cnt t i j) ∈ (build_graph t).edges) ∧
      0 < edgesBetween (build_graph t) (nodeOfId t i) (nodeOfId t j)) := by
  refine ⟨build_graph_edge_iff t, ?_⟩
  intro i j hi hj hij hpos
  refine ⟨fun hlt => edgesBetween_strict t hkeys hids hsub hi hj hij hlt,
    fun heq => edgesBetween_tie t hkeys hids hsub hi hj hij heq (by omega), ?_⟩
  rcases lt_trichotomy (cnt t i j) (cnt t j i) with h | h | h
  · have := (edgesBetween_strict t hkeys hids hsub hj hi (Ne.symm hij) h).1
    omega
  · have := (edgesBetween_tie t hkeys hids hsub hi hj hij h (by omega)).1
    rw [edgesBetween_symm] at this
    omega
  · have := (edgesBetween_strict t hkeys hids hsub hi hj hij h).1
    rw [edgesBetween_symm] at this
    omega

/-- Witness for C2: after two weighted ballots over candidates `{0, 1}` the
pair is compared 3–1 in favour of candidate 0, and the graph carries exactly
one edge between the two nodes. -/
theorem claim_C2_witness :
    cnt ((add_weighted ((add_weighted (with_candidates 1 [0, 1] : CondorcetTally ℕ)
        [0, 1] 3).2) [1, 0] 1).2) 1 0 <
      cnt ((add_weighted ((add_weighted (with_candidates 1 [0, 1] : CondorcetTally ℕ)
        [0, 1] 3).2) [1, 0] 1).2) 0 1 ∧
    edgesBetween
      (build_graph ((add_weighted ((add_weighted
        (with_candidates 1 [0, 1] : CondorcetTally ℕ) [0, 1] 3).2) [1, 0] 1).2))
      (nodeOfId ((add_weighted ((add_weighted
        (with_candidates 1 [0, 1] : CondorcetTally ℕ) [0, 1] 3).2) [1, 0] 1).2) 1)
      (nodeOfId ((add_weighted ((add_weighted
        (with_candidates 1 [0, 1] : CondorcetTally ℕ) [0, 1] 3).2) [1, 0] 1).2) 0) = 1 :=
  ⟨by decide,
    (((claim_C2 ((add_weighted ((add_weighted
          (with_candidates 1 [0, 1] : CondorcetTally ℕ) [0, 1] 3).2) [1, 0] 1).2)
        (by decide) (by decide) (by decide)).2 0 1 (by decide) (by decide) (by decide)
        (by decide)).1 (by decide)).1⟩

end CondorcetTally

/-- Successor node indices of `u` along directed edges. -/
def succs {α : Type} (g : PGraph α) (u : ℕ) : List ℕ :=
  g.edges.filterMap (fun e => if e.1 = u then some e.2.1 else none)

/-- One breadth step of reachability: a set of nodes together with all of
their direct successors. -/
def reachStep {α : Type} (g : PGraph α) (s : List ℕ) : List ℕ :=
  (s ++ s.flatMap (succs g)).dedup

/-- Iterated reachability steps. -/
def reachN {α : Type} (g : PGraph α) : ℕ → List ℕ → List ℕ
  | 0, s => s
  | n + 1, s => reachN g n (reachStep g s)

/-- Nodes reachable from `u` (closing for as many steps as there are nodes,
which saturates directed reachability). -/
def reachList {α : Type} (g : PGraph α) (u : ℕ) : List ℕ :=
  reachN g g.nodes.length [u]

/-- Mutual reachability of two nodes. -/
def mutualReach {α : Type} (g : PGraph α) (u v : ℕ) : Bool :=
  decide (v ∈ reachList g u) && decide (u ∈ reachList g v)

/-- One grouping step: if node `i` is already in some component, keep the
groups; otherwise append the component of `i` (all not-yet-grouped nodes
mutually reachable with `i`). -/
def sccStep {α : Type} (g : PGraph α) (groups : List (List ℕ)) (i : ℕ) : List (List ℕ) :=
  if i ∈ groups.flatten then groups
  else groups ++ [(List.range g.nodes.length).filter
    (fun j => decide (j ∉ groups.flatten) && mutualReach g i j)]

/-- Modelled from the spec: `petgraph::algo::tarjan_scc`, the strongly
connected components decomposition used by `CondorcetTally::ranked`
(spec section 4.4: compute strongly connected components via Tarjan's
algorithm; each component is one Smith set / tie group). The call itself is
library code external to this repository, so it is modelled by its
documented behaviour: a partition of all graph nodes into nonempty strongly
connected components, here obtained by grouping nodes by mutual
reachability. -/
def sccList {α : Type} (g : PGraph α) : List (List ℕ) :=
  (List.range g.nodes.length).foldl (sccStep g) []

theorem mem_reachStep_self {α : Type} (g : PGraph α) (s : List ℕ) :
    ∀ x ∈ s, x ∈ reachStep g s := by
  intro x hx
  unfold reachStep
  rw [List.mem_dedup]
  exact List.mem_append_left _ hx

theorem mem_reachN_self {α : Type} (g : PGraph α) :
    ∀ (n : ℕ) (s : List ℕ) (x : ℕ), x ∈ s → x ∈ reachN g n s := by
  intro n
  induction n with
  | zero => intro s x hx; exact hx
  | succ n ih =>
    intro s x hx
    exact ih (reachStep g s) x (mem_reachStep_self g s x hx)

theorem mutualReach_refl {α : Type} (g : PGraph α) (u : ℕ) :
    mutualReach g u u = true := by
  unfold mutualReach reachList
  have h : u ∈ reachN g g.nodes.length [u] :=
    mem_reachN_self g _ [u] u (List.mem_singleton_self u)
  simp [h]

theorem sccStep_flatten_subset {α : Type} (g : PGraph α) (groups : List (List ℕ)) (i : ℕ) :
    groups.flatten ⊆ (sccStep g groups i).flatten := by
  unfold sccStep
  by_cases h : i ∈ groups.flatten
  · rw [if_pos h]
    exact List.Subset.refl _
  · rw [if_neg h, List.flatten_append]
    exact List.subset_append_left _ _

theorem sccStep_mem {α : Type} (g : PGraph α) (groups : List (List ℕ)) {i : ℕ}
    (hi : i < g.nodes.length) : i ∈ (sccStep g groups i).flatten := by
  unfold sccStep
  by_cases h : i ∈ groups.flatten
  · rw [if_pos h]; exact h
  · rw [if_neg h, List.flatten_append]
    apply List.mem_append_right
    simp only [List.flatten, List.append_nil]
    rw [List.mem_filter]
    refine ⟨List.mem_range.mpr hi, ?_⟩
    simp [h, mutualReach_refl]

theorem foldl_sccStep_subset {α : Type} (g : PGraph α) :
    ∀ (l : List ℕ) (groups : List (List ℕ)),
      groups.flatten ⊆ (l.foldl (sccStep g) groups).flatten := by
  intro l
  induction l with
  | nil => intro groups x hx; exact hx
  | cons j l ih =>
    intro groups x hx
    exact ih (sccStep g groups j) (sccStep_flatten_subset g groups j hx)

theorem foldl_sccStep_mem {α : Type} (g : PGraph α) :
    ∀ (l : List ℕ) (groups : List (List ℕ)) (i : ℕ), i ∈ l → i < g.nodes.length →
      i ∈ (l.foldl (sccStep g) groups).flatten := by
  intro l
  induction l with
  | nil => intro groups i hi; cases hi
  | cons j l ih =>
    intro groups i hi hilt
    rcases List.mem_cons.mp hi with h | h
    · subst h
      exact foldl_sccStep_subset g l _ (sccStep_mem g groups hilt)
    · exact ih _ i h hilt

/-- Invariant carried through the grouping fold. -/
def SccInv {α : Type} (g : PGraph α) (groups : List (List ℕ)) : Prop :=
  (∀ gr ∈ groups, gr ≠ []) ∧ groups.flatten.Nodup ∧
    (∀ x ∈ groups.flatten, x < g.nodes.length) ∧
    groups.length ≤ groups.flatten.length

theorem sccStep_inv {α : Type} (g : PGraph α) {groups : List (List ℕ)} {i : ℕ}
    (hinv : SccInv g groups) (hi : i < g.nodes.length) : SccInv g (sccStep g groups i) := by
  obtain ⟨h1, h2, h3, h4⟩ := hinv
  unfold sccStep
  by_cases h : i ∈ groups.flatten
  · rw [if_pos h]; exact ⟨h1, h2, h3, h4⟩
  · rw [if_neg h]
    set ng := (List.range g.nodes.length).filter
      (fun j => decide (j ∉ groups.flatten) && mutualReach g i j) with hng
    have hmemng : i ∈ ng := by
      rw [hng, List.mem_filter]
      refine ⟨List.mem_range.mpr hi, ?_⟩
      simp [h, mutualReach_refl]
    have hflat : (groups ++ [ng]).flatten = groups.flatten ++ ng := by
      rw [List.flatten_append]
      simp [List.flatten]
    refine ⟨?_, ?_, ?_, ?_⟩
    · intro gr hgr
      rcases List.mem_append.mp hgr with hg | hg
      · exact h1 gr hg
      · have : gr = ng := by simpa using hg
        rw [this]
        intro hnil
        rw [hnil] at hmemng
        cases hmemng
    · rw [hflat]
      apply List.Nodup.append h2 (List.Nodup.filter _ (List.nodup_range _))
      intro x hx hxng
      rw [List.mem_filter] at hxng
      have := (Bool.and_eq_true_iff.mp hxng.2).1
      simp only [decide_eq_true_eq] at this
      exact this hx
    · rw [hflat]
      intro x hx
      rcases List.mem_append.mp hx with hg | hg
      · exact h3 x hg
      · rw [hng, List.mem_filter] at hg
        exact List.mem_range.mp hg.1
    · rw [hflat, List.length_append, List.length_append]
      have hng1 : 1 ≤ ng.length := List.length_pos.mpr (by
        intro hnil
        rw [hnil] at hmemng
        cases hmemng)
      simp only [List.length_singleton]
      omega

theorem foldl_sccStep_inv {α : Type} (g : PGraph α) :
    ∀ (l : List ℕ) (groups : List (List ℕ)), (∀ i ∈ l, i < g.nodes.length) →
      SccInv g groups → SccInv g (l.foldl (sccStep g) groups) := by
  intro l
  induction l with
  | nil => intro groups _ hinv; exact hinv
  | cons j l ih =>
    intro groups hl hinv
    exact ih _ (fun i hi => hl i (List.mem_cons_of_mem j hi))
      (sccStep_inv g hinv (hl j (List.mem_cons_self j l)))

theorem sccList_inv {α : Type} (g : PGraph α) : SccInv g (sccList g) := by
  apply foldl_sccStep_inv g _ _ (fun i hi => List.mem_range.mp hi)
  exact ⟨fun gr hgr => absurd hgr (List.not_mem_nil gr), List.nodup_nil,
    fun x hx => absurd hx (List.not_mem_nil x), le_refl 0⟩

theorem sccList_covers {α : Type} (g : PGraph α) {i : ℕ} (hi : i < g.nodes.length) :
    i ∈ (sccList g).flatten :=
  foldl_sccStep_mem g _ [] i (List.mem_range.mpr hi) hi

theorem sccList_flatten_perm {α : Type} (g : PGraph α) :
    (sccList g).flatten.Perm (List.range g.nodes.length) := by
  obtain ⟨_, hnd, hbound, _⟩ := sccList_inv g
  apply List.Subperm.antisymm
  · exact hnd.subperm (fun x hx => List.mem_range.mpr (hbound x hx))
  · exact (List.nodup_range _).subperm (fun x hx => sccList_covers g (List.mem_range.mp hx))

theorem sccList_length_le {α : Type} (g : PGraph α) :
    (sccList g).length ≤ g.nodes.length := by
  obtain ⟨_, _, _, hlen⟩ := sccList_inv g
  have := (sccList_flatten_perm g).length_eq
  rw [List.length_range] at this
  omega

theorem sccList_pos {α : Type} (g : PGraph α) (h : 0 < g.nodes.length) :
    0 < (sccList g).length := by
  have h0 : (0 : ℕ) ∈ (sccList g).flatten := sccList_covers g h
  cases hl : sccList g with
  | nil => rw [hl] at h0; cases h0
  | cons a l => simp

theorem map_getD_range {β : Type} (d : β) :
    ∀ l : List β, (List.range l.length).map (fun i => l.getD i d) = l := by
  intro l
  induction l with
  | nil => rfl
  | cons x rest ih =>
    rw [List.length_cons, List.range_succ_eq_map, List.map_cons, List.map_map]
    have h1 : (x :: rest).getD 0 d = x := rfl
    have h2 : ((fun i => (x :: rest).getD i d) ∘ fun i => i + 1) =
        fun i => rest.getD i d := by
      funext i
      simp [List.getD]
    rw [h1, h2, ih]

namespace CondorcetTally

variable {α : Type} [DecidableEq α]

/-- Enumeration loop of src/condorcet.rs `ranked`: each strongly connected
component (Smith set), in emitted order, contributes all of its members at
the rank equal to the component's position. `node_weight(..).unwrap()` reads
the candidate stored at a graph node. -/
def rankedAux [Inhabited α] (nodes : List α) : ℕ → List (List ℕ) → List (α × ℕ)
  | _, [] => []
  | rank, scc :: rest =>
    scc.map (fun gid => (nodes.getD gid default, rank)) ++ rankedAux nodes (rank + 1) rest

/-- Ranked list of all candidates (src/condorcet.rs `ranked`): Smith sets of
the pairwise graph via Tarjan's strongly-connected-components algorithm,
members of the `rank`-th component all tied at rank `rank`. -/
def ranked [Inhabited α] (t : CondorcetTally α) : List (α × ℕ) :=
  rankedAux (build_graph t).nodes 0 (sccList (build_graph t))

theorem rankedAux_map_fst [Inhabited α] (nodes : List α) :
    ∀ (gs : List (List ℕ)) (r0 : ℕ),
      (rankedAux nodes r0 gs).map Prod.fst =
        gs.flatten.map (fun gid => nodes.getD gid default) := by
  intro gs
  induction gs with
  | nil => intro r0; rfl
  | cons scc rest ih =>
    intro r0
    rw [rankedAux, List.map_append, List.map_map, ih (r0 + 1)]
    show scc.map ((fun gid => nodes.getD gid default)) ++ _ = _
    rw [List.flatten_cons, List.map_append]

theorem rankedAux_ranks [Inhabited α] (nodes : List α) :
    ∀ (gs : List (List ℕ)) (r0 : ℕ), (∀ gr ∈ gs, gr ≠ []) →
      ∀ r, r ∈ (rankedAux nodes r0 gs).map Prod.snd ↔ (r0 ≤ r ∧ r < r0 + gs.length) := by
  intro gs
  induction gs with
  | nil =>
    intro r0 _ r
    simp [rankedAux]
  | cons scc rest ih =>
    intro r0 hne r
    rw [rankedAux, List.map_append, List.mem_append, List.map_map]
    have h1 : (Prod.snd ∘ fun gid => (nodes.getD gid default, r0)) = fun _ : ℕ => r0 := rfl
    rw [h1]
    have hscc : scc ≠ [] := hne scc (List.mem_cons_self scc rest)
    constructor
    · rintro (h | h)
      · obtain ⟨gid, _, hgid⟩ := List.mem_map.mp h
        have hr : r = r0 := by simpa using hgid.symm
        rw [List.length_cons]
        omega
      · have hrest := (ih (r0 + 1) (fun gr hgr => hne gr (List.mem_cons_of_mem scc hgr)) r).mp h
        rw [List.length_cons]
        omega
    · rintro ⟨hle, hlt⟩
      by_cases hr : r = r0
      · left
        obtain ⟨x, hx⟩ := List.exists_mem_of_ne_nil scc hscc
        exact List.mem_map.mpr ⟨x, hx, by rw [hr]⟩
      · right
        rw [ih (r0 + 1) (fun gr hgr => hne gr (List.mem_cons_of_mem scc hgr)) r]
        rw [List.length_cons] at hlt
        omega

/-- C9: `ranked()` returns every interned candidate exactly as often as it
occurs as a key of the candidate map — in particular, with distinct keys,
every interned candidate exactly once — so the output is a partition of the
interned candidates into rank groups. Candidates that appear in no ballot
are isolated nodes and form their own strongly connected components. -/
theorem claim_C9 [Inhabited α] (t : CondorcetTally α) :
    ∀ c : α, ((ranked t).map Prod.fst).count c = (t.candidates.map Prod.fst).count c := by
  intro c
  unfold ranked
  rw [rankedAux_map_fst]
  have hperm := (sccList_flatten_perm (build_graph t)).map
    (fun gid => (build_graph t).nodes.getD gid default)
  rw [hperm.count_eq]
  have hnodes : (build_graph t).nodes = t.candidates.map Prod.fst := rfl
  rw [hnodes, map_getD_range default (t.candidates.map Prod.fst)]

end CondorcetTally

/-- Schulze link-strength variants (src/schulze.rs `Variant`). -/
inductive Variant : Type
  | winning : Variant
  | margin : Variant
  | ratio : Variant
deriving DecidableEq, Repr

/-- Numeric behaviour of a count type as exposed by the `Numeric` trait
(src/traits.rs): whether the type supports fractions, and its `max_value`
(zero when the type is unbounded). The counts themselves remain modelled as
`ℕ`. -/
structure NumericKind where
  fraction : Bool
  max_value : ℕ
deriving DecidableEq, Repr

/-- State of a Schulze tally (src/schulze.rs `SchulzeTally`): a link-strength
variant wrapped around a Condorcet tally, together with the numeric kind of
the chosen count type. -/
structure SchulzeTally (α : Type) where
  kind : NumericKind
  variant : Variant
  condorcet : CondorcetTally α
deriving DecidableEq, Repr

namespace SchulzeTally

variable {α : Type} [DecidableEq α]

/-- Type check (src/schulze.rs `check_types`): `Variant::Ratio` panics unless
the count type is fractional and bounded; `false` means the panic fires. -/
def check_types (kind : NumericKind) (variant : Variant) : Bool :=
  match variant with
  | Variant.ratio => kind.fraction && decide (kind.max_value ≠ 0)
  | _ => true

/-- Create a new Schulze tally (src/schulze.rs `new`); `none` models the
construction-time panic on an invalid variant/count-type combination. -/
def new (num_winners : ℕ) (variant : Variant) (kind : NumericKind) :
    Option (SchulzeTally α) :=
  if check_types kind variant then
    some { kind := kind, variant := variant, condorcet := CondorcetTally.new num_winners }
  else none

/-- Create a new Schulze tally with candidates (src/schulze.rs
`with_candidates`); `none` models the construction-time panic. -/
def with_candidates (num_winners : ℕ) (variant : Variant) (kind : NumericKind)
    (candidates : List α) : Option (SchulzeTally α) :=
  if check_types kind variant then
    some { kind := kind, variant := variant,
           condorcet := CondorcetTally.with_candidates num_winners candidates }
  else none

/-- Candidate ids in map iteration order (`self.condorcet.candidates.values()`). -/
def idsOf (t : SchulzeTally α) : List ℕ :=
  t.condorcet.candidates.map Prod.snd

/-- Variant-dependent strength of a direct link with support `dij` and
opposition `dji` (src/schulze.rs `strongest_paths`, the `match self.variant`
on a winning pair): Winning keeps the support, Margin subtracts, Ratio
divides — substituting `C::max_value()` when the opposition is zero. -/
def linkStrength (t : SchulzeTally α) (dij dji : ℕ) : ℕ :=
  match t.variant with
  | Variant.winning => dij
  | Variant.margin => dij - dji
  | Variant.ratio => if dji ≠ 0 then dij / dji else t.kind.max_value

/-- First loop of src/schulze.rs `strongest_paths`: the direct link strength
for every ordered pair of distinct candidate ids — the variant-dependent
strength when `d[i,j] > d[j,i]`, zero otherwise. -/
def initP (t : SchulzeTally α) : List ((ℕ × ℕ) × ℕ) :=
  (idsOf t).foldl (fun p i =>
    (idsOf t).foldl (fun p j =>
      if i ≠ j then
        if lookup0 t.condorcet.running_total (j, i) <
            lookup0 t.condorcet.running_total (i, j) then
          ainsert (i, j)
            (linkStrength t (lookup0 t.condorcet.running_total (i, j))
              (lookup0 t.condorcet.running_total (j, i))) p
        else ainsert (i, j) 0 p
      else p) p) []

/-- Second loop nest of src/schulze.rs `strongest_paths`: the widest-path
relaxation `p[j,k] := max(p[j,k], min(p[j,i], p[i,k]))` over all ordered
triples of distinct candidate ids. -/
def relaxP (t : SchulzeTally α) (p0 : List ((ℕ × ℕ) × ℕ)) : List ((ℕ × ℕ) × ℕ) :=
  (idsOf t).foldl (fun p i =>
    (idsOf t).foldl (fun p j =>
      if i ≠ j then
        (idsOf t).foldl (fun p k =>
          if i ≠ k ∧ j ≠ k then
            ainsert (j, k)
              (if (if lookup0 p (j, i) < lookup0 p (i, k) then lookup0 p (j, i)
                   else lookup0 p (i, k)) < lookup0 p (j, k) then lookup0 p (j, k)
               else (if lookup0 p (j, i) < lookup0 p (i, k) then lookup0 p (j, i)
                     else lookup0 p (i, k))) p
          else p) p
      else p) p) p0

/-- Inverted candidate map (id to candidate value), built by inserting each
entry in iteration order, as in the `candidates` inversion loops. -/
def invertCandidates (t : CondorcetTally α) : List (ℕ × α) :=
  t.candidates.foldl (fun m e => ainsert e.2 e.1 m) []

/-- Candidate value of an id (`candidates.get(id).unwrap()`). -/
def candOf [Inhabited α] (t : SchulzeTally α) (i : ℕ) : α :=
  (alookup (invertCandidates t.condorcet) i).getD default

/-- Strongest paths between all candidates (src/schulze.rs
`strongest_paths`): the closed strength table, with ids mapped back to
candidate values. -/
def strongest_paths [Inhabited α] (t : SchulzeTally α) : List ((α × α) × ℕ) :=
  (relaxP t (initP t)).map (fun e => ((candOf t e.1.1, candOf t e.1.2), e.2))

/-- Pairwise strength competition (src/schulze.rs `get_counted`): convert
the strongest paths to a hash map, then give candidate 1 one plurality vote
for every pair it dominates (`strength_1 >= strength_2`), and a zero-weight
vote otherwise; the result is the plurality tally's counted list. -/
def get_counted [Inhabited α] (t : SchulzeTally α) : List (α × ℕ) :=
  let strongest_hash := (strongest_paths t).foldl (fun m e => ainsert e.1 e.2 m) []
  strongest_hash.foldl (fun rt e =>
    if lookup0 strongest_hash (e.1.2, e.1.1) ≤ e.2 then bump rt e.1.1 1
    else bump rt e.1.1 0) []

end SchulzeTally

namespace CountedCandidates

variable {α : Type} [DecidableEq α]

/-- Stable sort of counted candidates by descending count
(src/result.rs `CountedCandidates::sort`, `sort_by(|a, b| b.1.cmp(&a.1))`;
insertion sort with the reversed order computes the same list). -/
def sortByCount (l : List (α × ℕ)) : List (α × ℕ) :=
  l.insertionSort (fun a b => b.2 ≤ a.2)

/-- Walking loop of src/result.rs `CountedCandidates::into_ranked`: assign
rank 0 to the leading counted candidates, bump the rank whenever the score
changes, and — when `num_winners` is nonzero — stop before starting a new
rank group once enough winners are collected. -/
def intoRankedAux (nw : ℕ) : List (α × ℕ) → ℕ → ℕ → List (α × ℕ) → List (α × ℕ)
  | [], _, _, acc => acc
  | e :: rest, rank, prev, acc =>
    if e.2 ≠ prev then
      (if nw ≠ 0 ∧ nw ≤ acc.length then acc
       else intoRankedAux nw rest (rank + 1) e.2 (acc ++ [(e.1, rank + 1)]))
    else intoRankedAux nw rest rank e.2 (acc ++ [(e.1, rank)])

/-- Convert counted candidates into ranked winners
(src/result.rs `CountedCandidates::into_ranked`): return empty on an empty
list, otherwise sort by descending count and walk with `prev` initialised to
the top score. -/
def into_ranked (counted : List (α × ℕ)) (nw : ℕ) : RankedWinners α :=
  match sortByCount counted with
  | [] => { winners := [], num_winners := nw }
  | e0 :: rest =>
    { winners := intoRankedAux nw (e0 :: rest) 0 e0.2 [], num_winners := nw }

end CountedCandidates

namespace SchulzeTally

variable {α : Type} [DecidableEq α]

/-- Ranked list of all candidates (src/schulze.rs `ranked`):
`get_counted().into_ranked(0).into_vec()`. -/
def ranked [Inhabited α] (t : SchulzeTally α) : List (α × ℕ) :=
  (CountedCandidates.into_ranked (get_counted t) 0).winners

/-- Ranked winners (src/schulze.rs `winners`):
`get_counted().into_ranked(num_winners)`. -/
def winners [Inhabited α] (t : SchulzeTally α) : RankedWinners α :=
  CountedCandidates.into_ranked (get_counted t) t.condorcet.num_winners

/-- C8: constructing a Schulze tally with `Variant::Ratio` over a count type
that does not support fractions fails immediately at construction time —
both `new` and `with_candidates` panic (modelled as `none`) rather than
deferring to produce truncated integer ratio strengths. -/
theorem claim_C8 (num_winners : ℕ) (kind : NumericKind) (cands : List α)
    (h : kind.fraction = false) :
    new (α := α) num_winners Variant.ratio kind = none ∧
    with_candidates num_winners Variant.ratio kind cands = none := by
  have hc : check_types kind Variant.ratio = false := by
    unfold check_types
    rw [h]
    rfl
  constructor
  · unfold new
    rw [hc]
    rfl
  · unfold with_candidates
    rw [hc]
    rfl

/-- Witness for C8: the integer kind (`fraction = false`, unbounded) makes
ratio-variant construction fail at once. -/
theorem claim_C8_witness :
    (NumericKind.mk false 0).fraction = false ∧
    new (α := ℕ) 1 Variant.ratio (NumericKind.mk false 0) = none :=
  ⟨by decide, (claim_C8 (α := ℕ) 1 (NumericKind.mk false 0) [0] (by decide)).1⟩

/-- C10: with at most one interned candidate (in particular exactly one),
`ranked()` and `winners()` of a Schulze tally are empty for every ballot
history and requested winner count: the ranking is derived only from ordered
pairs of distinct candidates, and there are none. -/
theorem claim_C10 [Inhabited α] (t : SchulzeTally α)
    (h : t.condorcet.candidates.length ≤ 1) :
    ranked t = [] ∧ (winners t).winners = [] := by
  have hids : idsOf t = [] ∨ ∃ i, idsOf t = [i] := by
    unfold idsOf
    cases hc : t.condorcet.candidates with
    | nil => left; rfl
    | cons e rest =>
      cases rest with
      | nil => right; exact ⟨e.2, rfl⟩
      | cons f rest' => rw [hc] at h; simp at h
  have hinit : initP t = [] := by
    rcases hids with h1 | ⟨i, h1⟩ <;>
      · unfold initP
        rw [h1]
        simp
  have hrelax : relaxP t (initP t) = [] := by
    rw [hinit]
    rcases hids with h1 | ⟨i, h1⟩ <;>
      · unfold relaxP
        rw [h1]
        simp
  have hsp : strongest_paths t = [] := by
    unfold strongest_paths
    rw [hrelax]
    rfl
  have hgc : get_counted t = [] := by
    unfold get_counted
    rw [hsp]
    rfl
  have hir : ∀ nw, CountedCandidates.into_ranked (get_counted t) nw =
      { winners := [], num_winners := nw } := by
    intro nw
    rw [hgc]
    rfl
  exact ⟨by rw [ranked, hir 0], by rw [winners, hir _]⟩

/-- Witness for C10: a concrete one-candidate Schulze tally has empty
`ranked()` output. -/
theorem claim_C10_witness :
    (SchulzeTally.mk (NumericKind.mk true 0) Variant.winning
        (CondorcetTally.with_candidates 1 [(5 : ℕ)])).condorcet.candidates.length ≤ 1 ∧
    ranked (SchulzeTally.mk (NumericKind.mk true 0) Variant.winning
        (CondorcetTally.with_candidates 1 [(5 : ℕ)])) = [] :=
  ⟨by decide,
    (claim_C10 (SchulzeTally.mk (NumericKind.mk true 0) Variant.winning
        (CondorcetTally.with_candidates 1 [(5 : ℕ)])) (by decide)).1⟩

end SchulzeTally

theorem foldl_preserve {β σ : Type} {Q : σ → Prop} (f : σ → β → σ) :
    ∀ (l : List β) (s : σ), Q s → (∀ s' b, b ∈ l → Q s' → Q (f s' b)) →
      Q (l.foldl f s) := by
  intro l
  induction l with
  | nil => intro s hs _; exact hs
  | cons c l ih =>
    intro s hs hstep
    exact ih (f s c) (hstep s c (List.mem_cons_self c l) hs)
      (fun s' b hb => hstep s' b (List.mem_cons_of_mem c hb))

theorem foldl_attain {β σ : Type} {Q : σ → Prop} (f : σ → β → σ) (b : β)
    (hpres : ∀ s' b', Q s' → Q (f s' b')) (hQb : ∀ s', Q (f s' b)) :
    ∀ (l : List β) (s : σ), b ∈ l → Q (l.foldl f s) := by
  intro l
  induction l with
  | nil => intro s hb; cases hb
  | cons c l ih =>
    intro s hb
    rcases List.mem_cons.mp hb with h | h
    · subst h
      exact foldl_preserve f l (f s b) (hQb s) (fun s' b' _ => hpres s' b')
    · exact ih (f s c) h

theorem ainsert_ne_nil {κ ν : Type} [DecidableEq κ] (k : κ) (v : ν) (m : List (κ × ν)) :
    ainsert k v m ≠ [] := by
  cases m with
  | nil => simp [ainsert]
  | cons e rest =>
    unfold ainsert
    by_cases h : e.1 = k <;> simp [h]

theorem bump_ne_nil {κ : Type} [DecidableEq κ] (m : List (κ × ℕ)) (k : κ) (w : ℕ) :
    bump m k w ≠ [] := by
  unfold bump
  cases alookup m k with
  | some v => exact ainsert_ne_nil k (v + w) m
  | none => simp

theorem ainsert_keys {κ ν : Type} [DecidableEq κ] (k : κ) (v : ν) :
    ∀ m : List (κ × ν), (ainsert k v m).map Prod.fst =
      if k ∈ m.map Prod.fst then m.map Prod.fst else m.map Prod.fst ++ [k] := by
  intro m
  induction m with
  | nil => simp [ainsert]
  | cons e rest ih =>
    unfold ainsert
    by_cases he : e.1 = k
    · rw [if_pos he]
      have : k ∈ (e :: rest).map Prod.fst := by
        rw [List.map_cons, he]
        exact List.mem_cons_self k _
      rw [if_pos this, List.map_cons, List.map_cons, he]
    · rw [if_neg he, List.map_cons, List.map_cons, ih]
      by_cases hk : k ∈ rest.map Prod.fst
      · rw [if_pos hk, if_pos (List.mem_cons_of_mem e.1 hk)]
      · have hn : k ∉ e.1 :: rest.map Prod.fst := by
          intro hc
          rcases List.mem_cons.mp hc with h | h
          · exact he h.symm
          · exact hk h
        rw [if_neg hk, if_neg hn, List.cons_append]

theorem ainsert_keys_nodup {κ ν : Type} [DecidableEq κ] (k : κ) (v : ν)
    {m : List (κ × ν)} (h : (m.map Prod.fst).Nodup) :
    ((ainsert k v m).map Prod.fst).Nodup := by
  rw [ainsert_keys]
  by_cases hk : k ∈ m.map Prod.fst
  · rw [if_pos hk]; exact h
  · rw [if_neg hk]
    apply List.Nodup.append h (List.nodup_singleton k)
    intro x hx hxk
    rw [List.mem_singleton] at hxk
    exact hk (hxk ▸ hx)

theorem ainsert_keys_mem {κ ν : Type} [DecidableEq κ] {k : κ} (v : ν)
    {m : List (κ × ν)} {x : κ} (h : x ∈ (ainsert k v m).map Prod.fst) :
    x = k ∨ x ∈ m.map Prod.fst := by
  rw [ainsert_keys] at h
  by_cases hk : k ∈ m.map Prod.fst
  · rw [if_pos hk] at h; right; exact h
  · rw [if_neg hk] at h
    rcases List.mem_append.mp h with h | h
    · right; exact h
    · left; exact List.mem_singleton.mp h

theorem bump_keys_nodup {κ : Type} [DecidableEq κ] (k : κ) (w : ℕ)
    {m : List (κ × ℕ)} (h : (m.map Prod.fst).Nodup) :
    ((bump m k w).map Prod.fst).Nodup := by
  unfold bump
  cases ha : alookup m k with
  | some v => exact ainsert_keys_nodup k (v + w) h
  | none =>
    have hk : k ∉ m.map Prod.fst := by
      intro hmem
      have := alookup_isSome_of_mem hmem
      rw [ha] at this
      simp at this
    rw [List.map_append]
    apply List.Nodup.append h (by simp)
    intro x hx hxk
    simp only [List.map_cons, List.map_nil, List.mem_singleton] at hxk
    exact hk (hxk ▸ hx)

theorem bump_keys_mem {κ : Type} [DecidableEq κ] {k : κ} (w : ℕ)
    {m : List (κ × ℕ)} {x : κ} (h : x ∈ (bump m k w).map Prod.fst) :
    x = k ∨ x ∈ m.map Prod.fst := by
  unfold bump at h
  cases ha : alookup m k with
  | some v =>
    rw [ha] at h
    exact ainsert_keys_mem (v + w) h
  | none =>
    rw [ha, List.map_append] at h
    rcases List.mem_append.mp h with h | h
    · right; exact h
    · left; simpa using h

namespace CountedCandidates

variable {α : Type} [DecidableEq α]

/-- Rank sequence produced by the `into_ranked` walking loop when
`num_winners = 0` (never truncating). -/
def ranksFrom : List (α × ℕ) → ℕ → ℕ → List ℕ
  | [], _, _ => []
  | e :: rest, rank, prev =>
    if e.2 ≠ prev then (rank + 1) :: ranksFrom rest (rank + 1) e.2
    else rank :: ranksFrom rest rank e.2

theorem intoRankedAux_zero_snd :
    ∀ (l : List (α × ℕ)) (rank prev : ℕ) (acc : List (α × ℕ)),
      (intoRankedAux 0 l rank prev acc).map Prod.snd =
        acc.map Prod.snd ++ ranksFrom l rank prev := by
  intro l
  induction l with
  | nil => intro rank prev acc; simp [intoRankedAux, ranksFrom]
  | cons e rest ih =>
    intro rank prev acc
    rw [intoRankedAux, ranksFrom]
    by_cases he : e.2 ≠ prev
    · rw [if_pos he, if_pos he, if_neg (by simp), ih]
      simp
    · rw [if_neg he, if_neg he, ih]
      simp

theorem ranksFrom_head :
    ∀ (l : List (α × ℕ)) (rank : ℕ) (e : α × ℕ),
      ∃ k, rank ≤ k ∧ k ≤ rank + l.length ∧
        ∀ r, r ∈ ranksFrom (e :: l) rank e.2 ↔ (rank ≤ r ∧ r ≤ k) := by
  intro l
  induction l with
  | nil =>
    intro rank e
    refine ⟨rank, le_refl _, by simp, ?_⟩
    intro r
    rw [ranksFrom, if_neg (by simp), ranksFrom]
    simp
    omega
  | cons f rest ih =>
    intro rank e
    by_cases hfe : f.2 = e.2
    · -- next score equal: rank stays
      obtain ⟨k, hk1, hk2, hmem⟩ := ih rank f
      refine ⟨k, hk1, by rw [List.length_cons]; omega, ?_⟩
      intro r
      have hexp : ranksFrom (e :: f :: rest) rank e.2 =
          rank :: ranksFrom (f :: rest) rank f.2 := by
        rw [ranksFrom, if_neg (by simp)]
        rw [ranksFrom, if_neg (by simp [hfe]), ranksFrom, if_neg (by simp)]
      rw [hexp, List.mem_cons, hmem r]
      omega
    · -- next score differs: rank bumps by one
      obtain ⟨k, hk1, hk2, hmem⟩ := ih (rank + 1) f
      refine ⟨k, by omega, by rw [List.length_cons]; omega, ?_⟩
      intro r
      have hexp : ranksFrom (e :: f :: rest) rank e.2 =
          rank :: ranksFrom (f :: rest) (rank + 1) f.2 := by
        rw [ranksFrom, if_neg (by simp)]
        rw [ranksFrom, if_pos (by simpa using hfe), ranksFrom, if_neg (by simp)]
      rw [hexp, List.mem_cons, hmem r]
      omega

theorem into_ranked_zero_ranks {counted : List (α × ℕ)} (hne : counted ≠ []) :
    ∃ k, k + 1 ≤ counted.length ∧
      ∀ r, r ∈ (into_ranked counted 0).winners.map Prod.snd ↔ r ≤ k := by
  have hslen : (sortByCount counted).length = counted.length :=
    (List.perm_insertionSort _ counted).length_eq
  cases hs : sortByCount counted with
  | nil =>
    exfalso
    rw [hs] at hslen
    exact hne (List.length_eq_zero.mp hslen.symm)
  | cons e0 rest =>
    obtain ⟨k, hk1, hk2, hmem⟩ := ranksFrom_head rest 0 e0
    refine ⟨k, ?_, ?_⟩
    · rw [hs] at hslen
      rw [List.length_cons] at hslen
      omega
    · intro r
      unfold into_ranked
      rw [hs]
      simp only
      rw [intoRankedAux_zero_snd, List.map_nil, List.nil_append, hmem r]
      omega

end CountedCandidates

namespace SchulzeTally

variable {α : Type} [DecidableEq α]

theorem initP_keys (t : SchulzeTally α) :
    ∀ x ∈ (initP t).map Prod.fst, x.1 ∈ idsOf t ∧ x.2 ∈ idsOf t := by
  unfold initP
  refine foldl_preserve
    (Q := fun p : List ((ℕ × ℕ) × ℕ) =>
      ∀ x ∈ p.map Prod.fst, x.1 ∈ idsOf t ∧ x.2 ∈ idsOf t) _ _ _ ?_ ?_
  · intro x hx
    cases hx
  · intro p i hi hp
    refine foldl_preserve (Q := fun p : List ((ℕ × ℕ) × ℕ) =>
      ∀ x ∈ p.map Prod.fst, x.1 ∈ idsOf t ∧ x.2 ∈ idsOf t) _ _ _ hp ?_
    intro p' j hj hp' x hx
    by_cases hij : i ≠ j
    · rw [if_pos hij] at hx
      have hcases : x = (i, j) ∨ x ∈ p'.map Prod.fst := by
        split at hx
        · exact ainsert_keys_mem _ hx
        · exact ainsert_keys_mem _ hx
      rcases hcases with h | h
      · subst h
        exact ⟨hi, hj⟩
      · exact hp' x h
    · rw [if_neg hij] at hx
      exact hp' x hx

theorem relaxP_keys (t : SchulzeTally α) (p0 : List ((ℕ × ℕ) × ℕ))
    (h0 : ∀ x ∈ p0.map Prod.fst, x.1 ∈ idsOf t ∧ x.2 ∈ idsOf t) :
    ∀ x ∈ (relaxP t p0).map Prod.fst, x.1 ∈ idsOf t ∧ x.2 ∈ idsOf t := by
  unfold relaxP
  refine foldl_preserve
    (Q := fun p : List ((ℕ × ℕ) × ℕ) =>
      ∀ x ∈ p.map Prod.fst, x.1 ∈ idsOf t ∧ x.2 ∈ idsOf t) _ _ _ h0 ?_
  intro p i hi hp
  refine foldl_preserve (Q := fun p : List ((ℕ × ℕ) × ℕ) =>
    ∀ x ∈ p.map Prod.fst, x.1 ∈ idsOf t ∧ x.2 ∈ idsOf t) _ _ _ hp ?_
  intro p' j hj hp'
  by_cases hij : i ≠ j
  · rw [if_pos hij]
    refine foldl_preserve (Q := fun p : List ((ℕ × ℕ) × ℕ) =>
      ∀ x ∈ p.map Prod.fst, x.1 ∈ idsOf t ∧ x.2 ∈ idsOf t) _ _ _ hp' ?_
    intro p'' k hk hp'' x hx
    by_cases hjk : i ≠ k ∧ j ≠ k
    · rw [if_pos hjk] at hx
      have hcases : x = (j, k) ∨ x ∈ p''.map Prod.fst := ainsert_keys_mem _ hx
      rcases hcases with h | h
      · subst h
        exact ⟨hj, hk⟩
      · exact hp'' x h
    · rw [if_neg hjk] at hx
      exact hp'' x hx
  · rw [if_neg hij]
    exact hp'

theorem initP_ne_nil (t : SchulzeTally α) {a b : ℕ} (ha : a ∈ idsOf t)
    (hb : b ∈ idsOf t) (hab : a ≠ b) : initP t ≠ [] := by
  unfold initP
  refine foldl_attain (Q := fun p : List ((ℕ × ℕ) × ℕ) => p ≠ []) _ a ?_ ?_ _ _ ha
  · intro p i hp
    refine foldl_preserve (Q := fun p : List ((ℕ × ℕ) × ℕ) => p ≠ []) _ _ _ hp ?_
    intro p' j hj hp'
    by_cases hij : i ≠ j
    · rw [if_pos hij]
      split
      · exact ainsert_ne_nil _ _ _
      · exact ainsert_ne_nil _ _ _
    · rw [if_neg hij]
      exact hp'
  · intro p
    refine foldl_attain (Q := fun p : List ((ℕ × ℕ) × ℕ) => p ≠ []) _ b ?_ ?_ _ _ hb
    · intro p' j hp'
      by_cases haj : a ≠ j
      · rw [if_pos haj]
        split
        · exact ainsert_ne_nil _ _ _
        · exact ainsert_ne_nil _ _ _
      · rw [if_neg haj]
        exact hp'
    · intro p'
      rw [if_pos hab]
      split
      · exact ainsert_ne_nil _ _ _
      · exact ainsert_ne_nil _ _ _

theorem relaxP_ne_nil (t : SchulzeTally α) {p0 : List ((ℕ × ℕ) × ℕ)} (h : p0 ≠ []) :
    relaxP t p0 ≠ [] := by
  unfold relaxP
  refine foldl_preserve (Q := fun p : List ((ℕ × ℕ) × ℕ) => p ≠ []) _ _ _ h ?_
  intro p i hi hp
  refine foldl_preserve (Q := fun p : List ((ℕ × ℕ) × ℕ) => p ≠ []) _ _ _ hp ?_
  intro p' j hj hp'
  by_cases hij : i ≠ j
  · rw [if_pos hij]
    refine foldl_preserve (Q := fun p : List ((ℕ × ℕ) × ℕ) => p ≠ []) _ _ _ hp' ?_
    intro p'' k hk hp''
    by_cases hjk : i ≠ k ∧ j ≠ k
    · rw [if_pos hjk]
      exact ainsert_ne_nil _ _ _
    · rw [if_neg hjk]
      exact hp''
  · rw [if_neg hij]
    exact hp'

theorem get_counted_ne_nil [Inhabited α] (t : SchulzeTally α)
    (hids : (idsOf t).Nodup) (h2 : 2 ≤ t.condorcet.candidates.length) :
    get_counted t ≠ [] := by
  have hlen : 2 ≤ (idsOf t).length := by
    unfold idsOf
    rw [List.length_map]
    exact h2
  obtain ⟨a, b, rest, hab⟩ : ∃ a b rest, idsOf t = a :: b :: rest := by
    cases h1 : idsOf t with
    | nil => rw [h1] at hlen; simp at hlen
    | cons a l =>
      cases l with
      | nil => rw [h1] at hlen; simp at hlen
      | cons b rest => exact ⟨a, b, rest, rfl⟩
  have hane : a ≠ b := by
    rw [hab] at hids
    exact (List.nodup_cons.mp hids).1 ∘ (fun h => h ▸ List.mem_cons_self b rest)
  have hain : a ∈ idsOf t := by rw [hab]; exact List.mem_cons_self _ _
  have hbin : b ∈ idsOf t := by rw [hab]; exact List.mem_cons_of_mem _ (List.mem_cons_self _ _)
  have hinit : initP t ≠ [] := initP_ne_nil t hain hbin hane
  have hrelax : relaxP t (initP t) ≠ [] := relaxP_ne_nil t hinit
  have hsp : strongest_paths t ≠ [] := by
    unfold strongest_paths
    intro hc
    exact hrelax (List.map_eq_nil.mp hc)
  obtain ⟨e0, es, hsp'⟩ : ∃ e0 es, strongest_paths t = e0 :: es := by
    cases hs : strongest_paths t with
    | nil => exact absurd hs hsp
    | cons e0 es => exact ⟨e0, es, rfl⟩
  have hhash : (strongest_paths t).foldl (fun m e => ainsert e.1 e.2 m) [] ≠ [] := by
    refine foldl_attain (Q := fun m : List ((α × α) × ℕ) => m ≠ []) _ e0
      (fun m e hm => ainsert_ne_nil _ _ _) (fun m => ainsert_ne_nil _ _ _) _ _ ?_
    rw [hsp']
    exact List.mem_cons_self _ _
  unfold get_counted
  obtain ⟨f0, fs, hh'⟩ : ∃ f0 fs,
      (strongest_paths t).foldl (fun m e => ainsert e.1 e.2 m) [] = f0 :: fs := by
    cases hh : (strongest_paths t).foldl (fun m e => ainsert e.1 e.2 m) [] with
    | nil => exact absurd hh hhash
    | cons f0 fs => exact ⟨f0, fs, rfl⟩
  refine foldl_attain (Q := fun m : List (α × ℕ) => m ≠ []) _ f0 ?_ ?_ _ _ ?_
  · intro m e hm
    split
    · exact bump_ne_nil _ _ _
    · exact bump_ne_nil _ _ _
  · intro m
    split
    · exact bump_ne_nil _ _ _
    · exact bump_ne_nil _ _ _
  · rw [hh']
    exact List.mem_cons_self _ _

theorem get_counted_keys_nodup [Inhabited α] (t : SchulzeTally α) :
    ((get_counted t).map Prod.fst).Nodup := by
  unfold get_counted
  refine foldl_preserve (Q := fun m : List (α × ℕ) => (m.map Prod.fst).Nodup) _ _ _
    List.nodup_nil ?_
  intro m e he hm
  split
  · exact bump_keys_nodup _ _ hm
  · exact bump_keys_nodup _ _ hm

theorem get_counted_keys_sub [Inhabited α] (t : SchulzeTally α) :
    ∀ x ∈ (get_counted t).map Prod.fst, x ∈ (idsOf t).map (candOf t) := by
  have hhash : ∀ e ∈ (strongest_paths t).foldl (fun m e => ainsert e.1 e.2 m) [],
      e.1.1 ∈ (idsOf t).map (candOf t) := by
    have hkeys : ∀ x ∈ ((strongest_paths t).foldl
        (fun m e => ainsert e.1 e.2 m) []).map Prod.fst,
        x.1 ∈ (idsOf t).map (candOf t) := by
      refine foldl_preserve (Q := fun m : List ((α × α) × ℕ) =>
        ∀ x ∈ m.map Prod.fst, x.1 ∈ (idsOf t).map (candOf t)) _ _ _ ?_ ?_
      · intro x hx
        cases hx
      · intro m e he hmq x hx
        rcases ainsert_keys_mem _ hx with h | h
        · subst h
          obtain ⟨k, hkmem, hke⟩ := List.mem_map.mp he
          have hk1 : k.1.1 ∈ idsOf t :=
            (relaxP_keys t (initP t) (initP_keys t) k.1
              (List.mem_map_of_mem Prod.fst hkmem)).1
          have : e.1.1 = candOf t k.1.1 := by rw [← hke]
          rw [this]
          exact List.mem_map_of_mem (candOf t) hk1
        · exact hmq x h
    intro e he
    exact hkeys e.1 (List.mem_map_of_mem Prod.fst he)
  unfold get_counted
  refine foldl_preserve (Q := fun m : List (α × ℕ) =>
    ∀ x ∈ m.map Prod.fst, x ∈ (idsOf t).map (candOf t)) _ _ _ ?_ ?_
  · intro x hx
    cases hx
  · intro m e he hmq x hx
    have hmemkey : x = e.1.1 ∨ x ∈ m.map Prod.fst := by
      split at hx
      · exact bump_keys_mem _ hx
      · exact bump_keys_mem _ hx
    rcases hmemkey with h | h
    · subst h
      exact hhash e he
    · exact hmq x h

theorem get_counted_length_le [Inhabited α] (t : SchulzeTally α) :
    (get_counted t).length ≤ t.condorcet.candidates.length := by
  have hnd := get_counted_keys_nodup t
  have hsub := get_counted_keys_sub t
  have := (hnd.subperm hsub).length_le
  rw [List.length_map, List.length_map] at this
  unfold idsOf at this
  rw [List.length_map] at this
  exact this

end SchulzeTally

/-- C6 counterexample: the claim fails for the Schulze engine on a tally
with exactly one interned candidate: `ranked()` is empty there, so the set
of ranks present is empty and not of the form `{0, ..., k}` for any `k`. -/
theorem claim_C6_counterexample :
    1 ≤ (SchulzeTally.mk (NumericKind.mk true 0) Variant.winning
        (CondorcetTally.with_candidates 1 [(0 : ℕ)])).condorcet.candidates.length ∧
    ¬ ∃ k, ∀ r, r ∈ (SchulzeTally.ranked (SchulzeTally.mk (NumericKind.mk true 0)
        Variant.winning (CondorcetTally.with_candidates 1 [(0 : ℕ)]))).map Prod.snd ↔
      r ≤ k := by
  constructor
  · decide
  · rintro ⟨k, hk⟩
    have h0 := (hk 0).mpr (Nat.zero_le k)
    have hempty : (SchulzeTally.ranked (SchulzeTally.mk (NumericKind.mk true 0)
        Variant.winning (CondorcetTally.with_candidates 1 [(0 : ℕ)]))).map Prod.snd =
        [] := by decide
    rw [hempty] at h0
    cases h0

/-- C6 amended: the rank set of any ranked output is `{0, ..., k}` with
`k` at most one less than the number of interned candidates — for the
Condorcet/Smith-set engine whenever at least one candidate is interned, and
for the Schulze engine whenever at least two candidates are interned (with
distinct ids); with exactly one interned candidate the Schulze `ranked()`
output is empty (see the counterexample and C10). -/
theorem claim_C6_amended {α : Type} [DecidableEq α] [Inhabited α] :
    (∀ t : CondorcetTally α, 1 ≤ t.candidates.length →
      ∃ k, k + 1 ≤ t.candidates.length ∧
        ∀ r, r ∈ (CondorcetTally.ranked t).map Prod.snd ↔ r ≤ k) ∧
    (∀ t : SchulzeTally α, (t.condorcet.candidates.map Prod.snd).Nodup →
      2 ≤ t.condorcet.candidates.length →
      ∃ k, k + 1 ≤ t.condorcet.candidates.length ∧
        ∀ r, r ∈ (SchulzeTally.ranked t).map Prod.snd ↔ r ≤ k) := by
  constructor
  · intro t h1
    have hnlen : (CondorcetTally.build_graph t).nodes.length = t.candidates.length := by
      show (t.candidates.map Prod.fst).length = t.candidates.length
      rw [List.length_map]
    have hpos : 0 < (sccList (CondorcetTally.build_graph t)).length :=
      sccList_pos _ (by rw [hnlen]; omega)
    have hle : (sccList (CondorcetTally.build_graph t)).length ≤ t.candidates.length := by
      have := sccList_length_le (CondorcetTally.build_graph t)
      rw [hnlen] at this
      exact this
    refine ⟨(sccList (CondorcetTally.build_graph t)).length - 1, by omega, ?_⟩
    intro r
    unfold CondorcetTally.ranked
    rw [CondorcetTally.rankedAux_ranks _ _ 0 (sccList_inv (CondorcetTally.build_graph t)).1 r]
    omega
  · intro t hnodup h2
    have hne := SchulzeTally.get_counted_ne_nil t hnodup h2
    obtain ⟨k, hk1, hk2⟩ := CountedCandidates.into_ranked_zero_ranks hne
    have hlen := SchulzeTally.get_counted_length_le t
    exact ⟨k, by omega, hk2⟩

/-- Witness for C6 amended (Condorcet part): a two-candidate Condorcet tally
has a contiguous rank set. -/
theorem claim_C6_amended_witness :
    1 ≤ (CondorcetTally.with_candidates 1 [(0 : ℕ), 1]).candidates.length ∧
    (∃ k, k + 1 ≤ (CondorcetTally.with_candidates 1 [(0 : ℕ), 1]).candidates.length ∧
      ∀ r, r ∈ (CondorcetTally.ranked
        (CondorcetTally.with_candidates 1 [(0 : ℕ), 1])).map Prod.snd ↔ r ≤ k) :=
  ⟨by decide,
    (claim_C6_amended (α := ℕ)).1 (CondorcetTally.with_candidates 1 [0, 1]) (by decide)⟩

end Tallystick
